import Mathlib

/-
  Verification development for the NoteVoice retrieval engine (rag.py).

  The Python source is shallowly embedded: strings are lists of characters,
  Python floats appearing in pure score arithmetic are rationals, numpy
  vectors are lists of reals, Python dicts (insertion ordered) are
  association lists, and fallible operations return Except/Option.
-/

set_option maxHeartbeats 1000000

namespace NoteVoice

/- ------------------------------------------------------------------
   Section 1: the chunker, `chunk_text` (rag.py lines 71-85).

   Python:
     if not text: return []
     chunks = []; start = 0
     while start < len(text):
         chunks.append(text[start:start+size])
         start += size - overlap
     return chunks

   The loop advance is `size - overlap`; we embed it through the suffix
   of the text that remains, consuming `stepPred + 1 = size - overlap`
   characters per emitted chunk (the loop only terminates for
   `overlap < size`, which every claim assumes; `chunk_text` returns the
   junk value [] outside that domain).
   ------------------------------------------------------------------ -/
def chunkAux (size stepPred : Nat) : List Char → List (List Char)
  | [] => []
  | c :: rest => ((c :: rest).take size) :: chunkAux size stepPred (rest.drop stepPred)
termination_by l => l.length
decreasing_by
  simp only [List.length_drop, List.length_cons]
  omega

def chunk_text (text : List Char) (size overlap : Nat) : List (List Char) :=
  if overlap < size then chunkAux size (size - overlap - 1) text else []

/-- Ceiling division on naturals, `⌈a / b⌉ = (a + b - 1) / b`. -/
def ceilDiv (a b : Nat) : Nat := (a + b - 1) / b

/-- Reassembly of a chunk list: keep the first chunk whole, strip the
first `o` characters of every later chunk, concatenate. -/
def reBuild (o : Nat) : List (List Char) → List Char
  | [] => []
  | c :: rest => c ++ (rest.map (fun l => l.drop o)).flatten

/-- The claim's notion of two adjacent chunks sharing exactly `o`
characters: the last `o` characters of the first equal the first `o`
characters of the second, both being full-length `o` regions. -/
def overlapsBy (o : Nat) (a b : List Char) : Prop :=
  a.drop (a.length - o) = b.take o ∧ o ≤ a.length ∧ o ≤ b.length

instance (o : Nat) (a b : List Char) : Decidable (overlapsBy o a b) := by
  unfold overlapsBy; infer_instance

/-- A ten character text used as a concrete test input. -/
def t10 : List Char := ['a', 'b', 'c', 'd', 'e', 'f', 'g', 'h', 'i', 'j']

/-- A six character text used as a concrete test input. -/
def t6 : List Char := ['a', 'b', 'c', 'd', 'e', 'f']

/- ------------------------------------------------------------------
   Section 2: `normalize_embeddings` (rag.py lines 65-69) and the
   vectors sent to the FAISS index by `_index_new_docs` (366-376) and
   `search_similarity` (393-395).

   Python:
     norms = np.linalg.norm(embs, axis=1, keepdims=True)
     norms[norms == 0] = 1.0
     return embs / norms

   numpy float vectors are embedded as lists of reals; the L2 norm is
   the exact real square root, so "unit within floating tolerance"
   becomes exact unit length.
   ------------------------------------------------------------------ -/
noncomputable def l2norm (v : List ℝ) : ℝ :=
  Real.sqrt ((v.map (fun x => x ^ 2)).sum)

noncomputable def normalizeRow (v : List ℝ) : List ℝ :=
  let n := l2norm v
  let n' := if n = 0 then 1 else n
  v.map (fun x => x / n')

noncomputable def normalize_embeddings (m : List (List ℝ)) : List (List ℝ) :=
  m.map normalizeRow

/-- The batching of `_index_new_docs`:
`[doc_ids[i:i+batch_size] for i in range(0, len(doc_ids), batch_size)]`,
with `bsPred + 1 = batch_size` (Python raises on a zero step). -/
def pyBatches {α : Type} (bsPred : Nat) : List α → List (List α)
  | [] => []
  | c :: rest => ((c :: rest).take (bsPred + 1)) :: pyBatches bsPred (rest.drop bsPred)
termination_by l => l.length
decreasing_by
  simp only [List.length_drop, List.length_cons]
  omega

/-- All vectors `_index_new_docs` passes to `vstore.add`, in order:
per batch, the texts are embedded and then normalized. The embedder is
abstract (deterministic per text, spec §6). -/
noncomputable def indexedVectors (embed1 : String → List ℝ) (bsPred : Nat)
    (texts : List String) : List (List ℝ) :=
  ((pyBatches bsPred texts).map (fun batch => normalize_embeddings (batch.map embed1))).flatten

/-- The query vectors `search_similarity` passes to `vstore.search`:
`normalize_embeddings(self._embed_texts([query]))`. -/
noncomputable def queryVectors (embed1 : String → List ℝ) (q : String) : List (List ℝ) :=
  normalize_embeddings ([q].map embed1)

/- ------------------------------------------------------------------
   Section 3: the SQLite-backed `DocumentStore` (rag.py lines 89-199).

   `add` (116-123) serializes the metadata with
   `json.dumps(metadata or {})`, inserts into `documents` (the row id is
   SQLite's lastrowid: one more than the largest rowid in the table,
   the table uses INTEGER PRIMARY KEY without deletes), mirrors the row
   into the FTS5 shadow table, and commits.

   Python values are embedded by a small flat inductive covering the
   shapes the codebase passes plus a non-JSON-serializable case (a
   set); `jsonDumps` fails exactly where `json.dumps` raises TypeError.
   ------------------------------------------------------------------ -/
inductive PyAtom where
  | aNone : PyAtom
  | aBool : Bool → PyAtom
  | aInt : Int → PyAtom
  | aStr : String → PyAtom
  | aSetLit : List Int → PyAtom
deriving DecidableEq

inductive PyVal where
  | atom : PyAtom → PyVal
  | pyList : List PyAtom → PyVal
  | pyDict : List (String × PyAtom) → PyVal
deriving DecidableEq

/-- Python truthiness of the embedded values. -/
def atomTruthy : PyAtom → Bool
  | .aNone => false
  | .aBool b => b
  | .aInt n => n != 0
  | .aStr s => s != ""
  | .aSetLit l => !l.isEmpty

def pyTruthy : PyVal → Bool
  | .atom a => atomTruthy a
  | .pyList l => !l.isEmpty
  | .pyDict l => !l.isEmpty

def atomDumps : PyAtom → Option String
  | .aNone => some "null"
  | .aBool true => some "true"
  | .aBool false => some "false"
  | .aInt n => some (toString n)
  | .aStr s => some ("\"" ++ s ++ "\"")
  | .aSetLit _ => none

def optMapList {α β : Type} (f : α → Option β) : List α → Option (List β)
  | [] => some []
  | a :: rest =>
    match f a, optMapList f rest with
    | some b, some bs => some (b :: bs)
    | _, _ => none

def joinComma (l : List String) : String := String.intercalate ", " l

/-- `json.dumps` on the embedded values (string escaping simplified;
no claim depends on the exact escape sequences). Fails (TypeError)
exactly on values containing a set. -/
def jsonDumps : PyVal → Option String
  | .atom a => atomDumps a
  | .pyList l => (optMapList atomDumps l).map (fun parts => "[" ++ joinComma parts ++ "]")
  | .pyDict l =>
    (optMapList (fun p => (atomDumps p.2).map (fun v => "\"" ++ p.1 ++ "\": " ++ v)) l).map
      (fun parts => "\x7b" ++ joinComma parts ++ "\x7d")

/-- A persisted row: (id, content, metadata JSON string). -/
structure DbRow where
  id : Nat
  content : String
  metaJson : String
deriving DecidableEq

/-- The persisted store: the `documents` table and its FTS5 shadow
table `docs_fts`, kept in lockstep by `add`. -/
structure DStore where
  docs : List DbRow
  fts : List DbRow
deriving DecidableEq

def dsEmpty : DStore := ⟨[], []⟩

/-- SQLite `lastrowid` basis: one more than the largest rowid present
(1 for an empty table). -/
def maxId (s : DStore) : Nat := s.docs.foldr (fun r m => max r.id m) 0

/-- The Python expression `metadata or \x7b\x7d`. -/
def pyOrEmptyDict : Option PyVal → PyVal
  | some v => if pyTruthy v then v else .pyDict []
  | none => .pyDict []

/-- The two INSERTs of `add` (documents table, then the FTS5 shadow
table) and the returned lastrowid. -/
def dsInsertRow (s : DStore) (content mj : String) : DStore × Nat :=
  let nid := maxId s + 1
  (⟨s.docs ++ [⟨nid, content, mj⟩], s.fts ++ [⟨nid, content, mj⟩]⟩, nid)

/-- `DocumentStore.add`: `metadata or \x7b\x7d`, `json.dumps`, insert
into both tables, return the new rowid. A `json.dumps` TypeError
propagates before anything is inserted. -/
def dsAdd (s : DStore) (content : String) (metadata : Option PyVal) :
    Except Unit (DStore × Nat) :=
  match jsonDumps (pyOrEmptyDict metadata) with
  | none => .error ()
  | some mj => .ok (dsInsertRow s content mj)

/-- Operations in a store lifetime: `add` calls and restarts. A
restart closes the SQLite connection and reopens the same database
file; every `add` committed, so the persisted rows are unchanged. -/
inductive DsOp where
  | add : String → Option PyVal → DsOp
  | restart : DsOp

def dsStep (s : DStore) : DsOp → DStore × Option Nat
  | .add c m =>
    match dsAdd s c m with
    | .ok (s', i) => (s', some i)
    | .error _ => (s, none)
  | .restart => (s, none)

/-- The ids issued over a sequence of operations, in order. -/
def dsRunIds : DStore → List DsOp → List Nat
  | _, [] => []
  | s, op :: ops =>
    match dsStep s op with
    | (s', some i) => i :: dsRunIds s' ops
    | (s', none) => dsRunIds s' ops

/- ------------------------------------------------------------------
   Section 4: `FaissVectorStore` persistence (rag.py lines 204-249).

   `_init_index` (215-225): if the index file exists, try `load()`;
   on success return; on any exception print a message ("Failed to
   load existing index: ... Creating new one.") and fall through to
   creating a fresh empty IndexIDMap. If the file does not exist, a
   fresh empty index is created silently.

   `load` (242-249): raises FileNotFoundError if the file is absent,
   propagates faiss read errors for a corrupt file, and raises
   RuntimeError if the loaded index is not an IndexIDMap. `FaissRAG.load`
   (389-390) delegates to it directly, so those errors reach the caller.
   ------------------------------------------------------------------ -/
/-- The contents of the FAISS index as persisted: id-to-vector pairs. -/
def IndexData : Type := List (Int × List ℚ)

/-- The persisted index file as found on disk. -/
inductive IndexFile where
  | good : IndexData → IndexFile
  | goodNotIdMap : IndexData → IndexFile
  | corrupt : IndexFile

inductive LoadErr where
  | fileNotFound : LoadErr
  | readFailed : LoadErr
  | notIdMap : LoadErr
deriving DecidableEq

/-- `FaissVectorStore.load` over the state of the file on disk
(`none` = absent). -/
def vload : Option IndexFile → Except LoadErr IndexData
  | none => .error .fileNotFound
  | some .corrupt => .error .readFailed
  | some (.goodNotIdMap _) => .error .notIdMap
  | some (.good d) => .ok d

/-- `FaissVectorStore._init_index`: returns the resulting index data
and whether the degradation message was printed. -/
def initIndex : Option IndexFile → IndexData × Bool
  | none => (([] : List (Int × List ℚ)), false)
  | some f =>
    match vload (some f) with
    | .ok d => (d, false)
    | .error _ => (([] : List (Int × List ℚ)), true)

/-- `FaissRAG.load` delegates to `FaissVectorStore.load` with no
handler: failures propagate to the caller. -/
def ragLoad (f : Option IndexFile) : Except LoadErr IndexData := vload f

/- ------------------------------------------------------------------
   Section 5: the search-side functions.

   `DocumentStore.search_keyword` (rag.py 133-146): SELECT from the
   FTS5 table with `LIMIT k*5`, then loop: parse metadata, skip rows
   failing the (truthy) subject filter case-insensitively, append,
   break once k results are collected.

   `FaissRAG.search_similarity` (393-428): embed+normalize the query,
   fetch `max(k*10, 100)` candidates when a (truthy) subject filter is
   present else `k`, then loop: skip sentinel id -1, skip missing docs,
   skip rows failing the subject filter, append, break at k.

   `DocumentStore.list_documents` (148-184): scan all rows, filter by
   (truthy) subject, group by source_path (fallback filename, default
   "unknown"), keep the first-seen row per group.

   The SQLite FTS engine itself is external: its ranked result list for
   a query is taken as an input (`ftsRows`, already in relevance
   order); likewise FAISS's ranked (score, id) list (`vsearch`).
   Metadata rows carry their parsed JSON dict as a string-to-string
   association list.
   ------------------------------------------------------------------ -/
/-- A parsed metadata mapping. -/
abbrev Meta := List (String × String)

/-- A row as returned from the database, metadata already parsed. -/
structure KRow where
  id : Int
  content : String
  md : Meta
deriving DecidableEq

/-- Python truthiness of an optional string argument: None and the
empty string are falsy. -/
def optTruthy : Option String → Bool
  | none => false
  | some s => s != ""

/-- `meta.get('subject', '')`. -/
def subjOf (md : Meta) : String := (List.lookup "subject" md).getD ""

/-- Whether a row passes the subject filter in the Python loops:
`subject and meta.get('subject', '').lower() != subject.lower()`
skips the row. -/
def skipBySubject (subject : Option String) (md : Meta) : Bool :=
  optTruthy subject && ((subjOf md).toLower != (subject.getD "").toLower)

/-- The result-collecting loop of `search_keyword`: `cnt` results are
already collected; append surviving rows, break once `k` are held. -/
def skLoop (subject : Option String) (k : Nat) : Nat → List KRow → List KRow
  | _, [] => []
  | cnt, r :: rest =>
    if skipBySubject subject r.md then
      skLoop subject k cnt rest
    else
      r :: (if k ≤ cnt + 1 then [] else skLoop subject k (cnt + 1) rest)

/-- `DocumentStore.search_keyword`: `ftsRows` is the full FTS5 ranked
match list for the query; SQL `LIMIT k*5` takes the first `k*5`. -/
def search_keyword (ftsRows : List KRow) (k : Nat) (subject : Option String) :
    List KRow :=
  skLoop subject k 0 (ftsRows.take (k * 5))

/-- A stored document as seen by `search_similarity` via
`docstore.get`. -/
structure DocRec where
  content : String
  md : Meta
deriving DecidableEq

structure SemHit where
  id : Int
  score : ℚ
  content : String
  md : Meta
deriving DecidableEq

/-- The result loop of `search_similarity` over the FAISS (score, id)
pairs: skip the -1 sentinel, skip ids with no stored document, apply
the subject filter, break at `k`. -/
def simLoop (docGet : Int → Option DocRec) (subject : Option String) (k : Nat) :
    Nat → List (ℚ × Int) → List SemHit
  | _, [] => []
  | cnt, (score, i) :: rest =>
    if i == -1 then simLoop docGet subject k cnt rest
    else
      match docGet i with
      | none => simLoop docGet subject k cnt rest
      | some d =>
        if skipBySubject subject d.md then
          simLoop docGet subject k cnt rest
        else
          ⟨i, score, d.content, d.md⟩ ::
            (if k ≤ cnt + 1 then [] else simLoop docGet subject k (cnt + 1) rest)

/-- `FaissRAG.search_similarity`: `vsearch n` is the FAISS ranked
result list when `n` neighbours are requested. -/
def search_similarity (vsearch : Nat → List (ℚ × Int)) (docGet : Int → Option DocRec)
    (k : Nat) (subject : Option String) : List SemHit :=
  let fetchk := if optTruthy subject then max (k * 10) 100 else k
  simLoop docGet subject k 0 (vsearch fetchk)

/-- A document summary produced by `list_documents`. -/
structure DocSum where
  id : Int
  filename : String
  subject : String
  ftype : String
  fsize : String
  fdate : String
  md : Meta
deriving DecidableEq

/-- `os.path.splitext(filename)[1].replace('.', '')`, simplified to
"text after the last dot" (the leading-dot special case of splitext is
not exercised by any claim). -/
def fileExtNoDot (f : String) : String :=
  let parts := f.splitOn "."
  if parts.length ≤ 1 then "" else parts.getLastD ""

/-- The summary record built for the first row of a new source_path
group. -/
def mkDocSum (r : KRow) (filename : String) : DocSum :=
  ⟨r.id, filename,
   (List.lookup "subject" r.md).getD "Uncategorized",
   (if filename != "unknown" then fileExtNoDot filename else "txt"),
   "Unknown", "Unknown", r.md⟩

/-- One iteration of the `list_documents` grouping loop over the
insertion-ordered `files_map` dict. -/
def ldStep (subject : Option String) (acc : List (String × DocSum)) (r : KRow) :
    List (String × DocSum) :=
  if skipBySubject subject r.md then acc
  else
    let filename := (List.lookup "filename" r.md).getD "unknown"
    let sourcePath := (List.lookup "source_path" r.md).getD filename
    if acc.any (fun p => p.1 == sourcePath) then acc
    else acc ++ [(sourcePath, mkDocSum r filename)]

/-- `DocumentStore.list_documents` over the full `documents` table. -/
def list_documents (rows : List KRow) (subject : Option String) : List DocSum :=
  (rows.foldl (ldStep subject) []).map (fun p => p.2)

/-- Concrete rows used as witnesses for the search functions. -/
def krows2 : List KRow :=
  [⟨1, "a", [("subject", "Math")]⟩, ⟨2, "b", [("subject", "CS")]⟩]

/- ------------------------------------------------------------------
   Section 6: `FaissRAG.hybrid_search` (rag.py lines 434-468).

   Python:
     semantic = self.search_similarity(query, k, subject=subject)
     keyword = self.search_keyword(query, k, subject=subject)
     kw_scores = \x7b\x7d
     for rank, item in enumerate(keyword):
         kw_scores[item['id']] = 1.0 / (1 + rank)
     merged = \x7b\x7d
     for item in semantic:
         merged[int(item['id'])] = \x7bid, semantic: score, content, metadata\x7d
     for item in keyword:
         did = int(item['id'])
         if did in merged: merged[did]['keyword'] = kw_scores[did]
         else: merged[did] = \x7bid, semantic: 0.0, keyword: kw_scores[did], ...\x7d
     results = [\x7bid, score: alpha*sem + (1-alpha)*kw, ...\x7d for v in merged.values()]
     results = sorted(results, key=lambda x: x['score'], reverse=True)
     return results[:k]

   The two search results are the abstract inputs (`sem`, `kw`).
   Python dicts are insertion-ordered association lists whose update
   keeps the key's position (`updIns`); `sorted(..., reverse=True)` is
   a stable descending sort by score, embedded as insertion sort with
   the relation "score at least" (any stable sort by the same key
   computes the same list). Float scores are rationals.
   ------------------------------------------------------------------ -/
structure KwHit where
  id : Int
  content : String
  md : Meta
deriving DecidableEq

structure MEnt where
  id : Int
  semantic : ℚ
  keyword : Option ℚ
  content : String
  md : Meta
deriving DecidableEq

structure RHit where
  id : Int
  score : ℚ
  semantic : ℚ
  keyword : ℚ
  content : String
  md : Meta
deriving DecidableEq

/-- Python dict assignment `m[key] = v`: update in place if the key is
present, else append. -/
def updIns {β : Type} (m : List (Int × β)) (key : Int) (v : β) : List (Int × β) :=
  if m.any (fun p => p.1 == key)
  then m.map (fun p => if p.1 == key then (p.1, v) else p)
  else m ++ [(key, v)]

/-- Python dict lookup with default. -/
def dictGetD {β : Type} (m : List (Int × β)) (key : Int) (d : β) : β :=
  ((m.find? (fun p => p.1 == key)).map (fun p => p.2)).getD d

/-- The `kw_scores` dict: `1.0 / (1 + rank)` per enumerated keyword
result. -/
def kwScoreDict (kw : List KwHit) : List (Int × ℚ) :=
  kw.enum.foldl (fun m p => updIns m p.2.id (1 / (1 + (p.1 : ℚ)))) []

/-- The first merge loop, over the semantic results. -/
def mergedSem (sem : List SemHit) : List (Int × MEnt) :=
  sem.foldl (fun m it => updIns m it.id ⟨it.id, it.score, none, it.content, it.md⟩) []

/-- One iteration of the second merge loop, over a keyword result. -/
def kwStep (kwsc : List (Int × ℚ)) (m : List (Int × MEnt)) (it : KwHit) :
    List (Int × MEnt) :=
  if m.any (fun p => p.1 == it.id) then
    m.map (fun p => if p.1 == it.id then
      (p.1, { p.2 with keyword := some (dictGetD kwsc it.id 0) }) else p)
  else m ++ [(it.id, ⟨it.id, 0, some (dictGetD kwsc it.id 0), it.content, it.md⟩)]

def mergedDict (sem : List SemHit) (kw : List KwHit) : List (Int × MEnt) :=
  kw.foldl (kwStep (kwScoreDict kw)) (mergedSem sem)

/-- Building one result record from a merged entry:
`v.get('semantic', 0.0)` is always present, `v.get('keyword', 0.0)`
defaults to 0. -/
def entryToHit (alpha : ℚ) (e : MEnt) : RHit :=
  ⟨e.id, alpha * e.semantic + (1 - alpha) * (e.keyword.getD 0),
   e.semantic, e.keyword.getD 0, e.content, e.md⟩

def hybridPre (sem : List SemHit) (kw : List KwHit) (alpha : ℚ) : List RHit :=
  (mergedDict sem kw).map (fun p => entryToHit alpha p.2)

/-- The comparison of the stable descending sort by score. -/
def scoreRel (a b : RHit) : Prop := b.score ≤ a.score

instance : DecidableRel scoreRel := fun a b =>
  inferInstanceAs (Decidable (b.score ≤ a.score))

instance : IsTotal RHit scoreRel := ⟨fun a b => le_total b.score a.score⟩

instance : IsTrans RHit scoreRel := ⟨fun _ _ _ h1 h2 => le_trans h2 h1⟩

/-- `sorted(results, key=lambda x: x['score'], reverse=True)`. -/
def pySortDesc (l : List RHit) : List RHit := l.insertionSort scoreRel

def hybrid_search (sem : List SemHit) (kw : List KwHit) (alpha : ℚ) (k : Nat) :
    List RHit :=
  (pySortDesc (hybridPre sem kw alpha)).take k

/- Specification-side definitions, written from the spec's words:
merge by id into a union (semantic entries, then new keyword entries),
score components defined declaratively from the two result lists, sort
descending by final score with ties broken by ascending id. -/
def semIds (sem : List SemHit) : List Int := sem.map (fun s => s.id)

def kwIds (kw : List KwHit) : List Int := kw.map (fun w => w.id)

/-- The declarative keyword score: `1/(1+rank)` at the 0-based rank of
the id in the keyword results, 0 when absent. -/
def kwRankScore (kw : List KwHit) (i : Int) : ℚ :=
  match kw.findIdx? (fun w => w.id == i) with
  | some r => 1 / (1 + (r : ℚ))
  | none => 0

/-- The declarative semantic score: the similarity score of the id in
the semantic results, 0 when absent. -/
def semScoreOf (sem : List SemHit) (i : Int) : ℚ :=
  ((sem.find? (fun s => s.id == i)).map (fun s => s.score)).getD 0

def specHitOf (sem : List SemHit) (kw : List KwHit) (alpha : ℚ) (i : Int)
    (content : String) (md : Meta) : RHit :=
  ⟨i, alpha * semScoreOf sem i + (1 - alpha) * kwRankScore kw i,
   semScoreOf sem i, kwRankScore kw i, content, md⟩

/-- The merged union, in merge order: semantic entries first, then
keyword entries whose id is new. -/
def unionEntries (sem : List SemHit) (kw : List KwHit) (alpha : ℚ) : List RHit :=
  sem.map (fun s => specHitOf sem kw alpha s.id s.content s.md) ++
  (kw.filter (fun w => !decide (w.id ∈ semIds sem))).map
    (fun w => specHitOf sem kw alpha w.id w.content w.md)

/-- The sort order claimed by the spec: descending score, ties broken
by ascending id. -/
def specRel (a b : RHit) : Prop :=
  b.score < a.score ∨ (a.score = b.score ∧ a.id ≤ b.id)

instance : DecidableRel specRel := fun a b =>
  inferInstanceAs (Decidable (b.score < a.score ∨ (a.score = b.score ∧ a.id ≤ b.id)))

def specSort (l : List RHit) : List RHit := l.insertionSort specRel

/-- The hybrid search as the claim describes it. -/
def hybridSpec (sem : List SemHit) (kw : List KwHit) (alpha : ℚ) (k : Nat) :
    List RHit :=
  (specSort (unionEntries sem kw alpha)).take k

/-- The shape of the merged dict after the semantic loop and a prefix
`done` of the keyword loop. -/
def stateOf (sem : List SemHit) (done : List KwHit) (kwsc : List (Int × ℚ)) :
    List (Int × MEnt) :=
  sem.map (fun s => (s.id, (⟨s.id, s.score,
    if s.id ∈ kwIds done then some (dictGetD kwsc s.id 0) else none,
    s.content, s.md⟩ : MEnt))) ++
  (done.filter (fun w => !decide (w.id ∈ semIds sem))).map
    (fun w => (w.id, (⟨w.id, 0, some (dictGetD kwsc w.id 0), w.content, w.md⟩ : MEnt)))

/-- In the alpha = 0 analysis: the union entry carrying a given keyword
result's id (taken from the semantic list when shared, else from the
keyword result itself). -/
def posEntry (sem : List SemHit) (kw : List KwHit) (w : KwHit) : RHit :=
  match sem.find? (fun s => s.id == w.id) with
  | some s => specHitOf sem kw 0 s.id s.content s.md
  | none => specHitOf sem kw 0 w.id w.content w.md

/-- Two semantic results with tied scores (ids 7 and 2) and no keyword
results. -/
def semCex : List SemHit := [⟨7, 1/2, "a", []⟩, ⟨2, 1/2, "b", []⟩]

/-- One semantic result (id 1, positive score). -/
def semCex4 : List SemHit := [⟨1, 1/2, "a", []⟩]

/-- One keyword result with a different id. -/
def kwCex4 : List KwHit := [⟨2, "b", []⟩]

end NoteVoice

namespace NoteVoice

theorem chunkAux_length (size sp : Nat) :
    ∀ (n : Nat) (t : List Char), t.length ≤ n →
      (chunkAux size sp t).length = (t.length + sp) / (sp + 1) := by
  intro n
  induction n with
  | zero =>
    intro t ht
    have h0 : t = [] := List.eq_nil_of_length_eq_zero (Nat.le_zero.mp ht)
    subst h0
    simp [chunkAux, Nat.div_eq_of_lt (Nat.lt_succ_self sp)]
  | succ n ih =>
    intro t ht
    match t with
    | [] => simp [chunkAux, Nat.div_eq_of_lt (Nat.lt_succ_self sp)]
    | c :: rest =>
      rw [chunkAux]
      simp only [List.length_cons]
      rw [ih (rest.drop sp) (by simp only [List.length_drop]
                                simp only [List.length_cons] at ht
                                omega)]
      simp only [List.length_drop]
      rcases le_or_lt rest.length sp with hle | hlt
      · have h1 : rest.length - sp = 0 := by omega
        rw [h1]
        have h2 : (0 + sp) / (sp + 1) = 0 := by
          rw [Nat.zero_add]; exact Nat.div_eq_of_lt (Nat.lt_succ_self sp)
        have h3 : rest.length + 1 + sp = rest.length + (sp + 1) := by omega
        rw [h2, h3, Nat.add_div_right _ (Nat.succ_pos sp),
            Nat.div_eq_of_lt (by omega : rest.length < sp + 1)]
      · have h1 : rest.length - sp + sp = rest.length := by omega
        have h3 : rest.length + 1 + sp = rest.length + (sp + 1) := by omega
        rw [h1, h3, Nat.add_div_right _ (Nat.succ_pos sp)]

theorem chunk_text_length (text : List Char) (size overlap : Nat)
    (h : overlap < size) :
    (chunk_text text size overlap).length = ceilDiv text.length (size - overlap) := by
  have hstep : size - overlap - 1 + 1 = size - overlap := by omega
  rw [chunk_text, if_pos h,
      chunkAux_length size (size - overlap - 1) text.length text le_rfl,
      ceilDiv, hstep]
  congr 1
  omega

theorem drop_drop_cons_eq (c : Char) (rest : List Char) (size o : Nat)
    (h : o < size) :
    (rest.drop (size - o - 1)).drop o = (c :: rest).drop size := by
  rw [List.drop_drop]
  have e0 : (c :: rest).drop size = rest.drop (size - 1) := by
    conv_lhs => rw [show size = (size - 1) + 1 by omega]
    exact List.drop_succ_cons ..
  rw [e0]
  congr 1
  omega

theorem chunkAux_flatten_drop (size o : Nat) (h : o < size) :
    ∀ (n : Nat) (t : List Char), t.length ≤ n →
      ((chunkAux size (size - o - 1) t).map (fun l => l.drop o)).flatten = t.drop o := by
  intro n
  induction n with
  | zero =>
    intro t ht
    have h0 : t = [] := List.eq_nil_of_length_eq_zero (Nat.le_zero.mp ht)
    subst h0
    simp [chunkAux]
  | succ n ih =>
    intro t ht
    match t with
    | [] => simp [chunkAux]
    | c :: rest =>
      rw [chunkAux]
      simp only [List.map_cons, List.flatten_cons]
      rw [ih (rest.drop (size - o - 1)) (by simp only [List.length_drop]
                                            simp only [List.length_cons] at ht
                                            omega)]
      have e2 : ((c :: rest).take size).drop o = ((c :: rest).drop o).take (size - o) :=
        List.drop_take ..
      rw [drop_drop_cons_eq c rest size o h, e2]
      have e3 : (c :: rest).drop size = ((c :: rest).drop o).drop (size - o) := by
        rw [List.drop_drop]
        congr 1
        omega
      rw [e3, List.take_append_drop]

theorem chunk_text_reBuild (T : List Char) (size o : Nat) (h : o < size) :
    reBuild o (chunk_text T size o) = T := by
  rw [chunk_text, if_pos h]
  match T with
  | [] => simp [chunkAux, reBuild]
  | c :: rest =>
    rw [chunkAux, reBuild]
    rw [chunkAux_flatten_drop size o h (rest.drop (size - o - 1)).length _ le_rfl]
    rw [drop_drop_cons_eq c rest size o h, List.take_append_drop]

theorem chunkAux_get? (size sp : Nat) :
    ∀ (n : Nat) (t : List Char), t.length ≤ n → ∀ (i : Nat), i * (sp + 1) < t.length →
      (chunkAux size sp t).get? i = some ((t.drop (i * (sp + 1))).take size) := by
  intro n
  induction n with
  | zero =>
    intro t ht i hi
    omega
  | succ n ih =>
    intro t ht i hi
    match t with
    | [] => simp at hi
    | c :: rest =>
      rw [chunkAux]
      match i with
      | 0 => simp
      | i + 1 =>
        rw [List.get?_cons_succ]
        have hlen : (rest.drop sp).length ≤ n := by
          simp only [List.length_drop]
          simp only [List.length_cons] at ht
          omega
        have hi' : i * (sp + 1) < (rest.drop sp).length := by
          simp only [List.length_drop]
          simp only [List.length_cons] at hi
          have hmul : (i + 1) * (sp + 1) = i * (sp + 1) + (sp + 1) := by ring
          omega
        rw [ih (rest.drop sp) hlen i hi']
        congr 2
        rw [List.drop_drop]
        have hs : (i + 1) * (sp + 1) = (sp + i * (sp + 1)) + 1 := by ring
        rw [hs]
        exact (List.drop_succ_cons ..).symm

theorem chunk_overlap_full (T : List Char) (size o i : Nat)
    (h : o < size) (ho : 0 < o)
    (hfull : i * (size - o) + size ≤ T.length) :
    ∃ a b, (chunk_text T size o).get? i = some a ∧
           (chunk_text T size o).get? (i + 1) = some b ∧
           a.length = size ∧
           a.drop (size - o) = b.take o ∧ (b.take o).length = o := by
  have hstep : size - o - 1 + 1 = size - o := by omega
  have hmul : (i + 1) * (size - o) = i * (size - o) + (size - o) := by ring
  have hi : i * (size - o) < T.length := by omega
  have hi1 : (i + 1) * (size - o) < T.length := by omega
  rw [chunk_text, if_pos h]
  refine ⟨(T.drop (i * (size - o))).take size, (T.drop ((i + 1) * (size - o))).take size,
    ?_, ?_, ?_, ?_, ?_⟩
  · rw [chunkAux_get? size (size - o - 1) T.length T le_rfl i (by rw [hstep]; exact hi)]
    rw [hstep]
  · rw [chunkAux_get? size (size - o - 1) T.length T le_rfl (i + 1) (by rw [hstep]; exact hi1)]
    rw [hstep]
  · rw [List.length_take, List.length_drop]
    omega
  · rw [List.drop_take, List.take_take, List.drop_drop]
    congr 1
    · omega
    · have : i * (size - o) + (size - o) = (i + 1) * (size - o) := by ring
      rw [this]
  · rw [List.take_take]
    have hmin : min o size = o := by omega
    rw [hmin, List.length_take, List.length_drop]
    omega

/-- C2 counterexample: for the 10-character text with `size = 5`,
`overlap = 2`, the code produces 4 chunks (starts 0, 3, 6, 9) while the
claimed formula `ceil((len(T) − overlap) / (size − overlap))` gives
`ceil(8/3) = 3`; the claimed chunk count is wrong. -/
theorem c2_cex :
    (chunk_text t10 5 2).length = 4 ∧
    ceilDiv (t10.length - 2) (5 - 2) = 3 ∧
    (chunk_text t10 5 2).length ≠ ceilDiv (t10.length - 2) (5 - 2) := by
  refine ⟨?_, by decide, ?_⟩
  · simp [chunk_text, chunkAux, t10]
  · simp [chunk_text, chunkAux, t10, ceilDiv]

/-- C2 amended: for `overlap < size` the chunk count equals
`ceil(len(T) / (size − overlap))` (the loop emits one chunk per start
position `0, step, 2·step, …` strictly below `len(T)`), and empty text
yields the empty sequence. Determinism is definitional: `chunk_text` is
a pure function of its arguments. -/
theorem c2_amended (T : List Char) (size overlap : Nat) (h : overlap < size) :
    (chunk_text T size overlap).length = ceilDiv T.length (size - overlap) ∧
    (T = [] → chunk_text T size overlap = []) := by
  refine ⟨chunk_text_length T size overlap h, ?_⟩
  intro h0
  subst h0
  simp [chunk_text, chunkAux]

/-- C2 amended witness at the concrete input `t10`, `size = 5`,
`overlap = 2`. -/
theorem c2_amended_witness :
    (chunk_text t10 5 2).length = ceilDiv t10.length (5 - 2) ∧
    (t10 = [] → chunk_text t10 5 2 = []) :=
  c2_amended t10 5 2 (by decide)

/-- C3 counterexample: for the 6-character text "abcdef" with
`size = 7`, `overlap = 5` the chunks are ["abcdef", "cdef", "ef"].
Chunks 0 and 1 are consecutive and chunk 1 is not the last chunk, yet
they share only 4 characters ("cdef"), not `overlap = 5`: chunk 0 was
already truncated by the end of the text. -/
theorem c3_cex :
    (chunk_text t6 7 5).length = 3 ∧
    (chunk_text t6 7 5).get? 0 = some ['a', 'b', 'c', 'd', 'e', 'f'] ∧
    (chunk_text t6 7 5).get? 1 = some ['c', 'd', 'e', 'f'] ∧
    ¬ overlapsBy 5 ['a', 'b', 'c', 'd', 'e', 'f'] ['c', 'd', 'e', 'f'] := by
  refine ⟨?_, ?_, ?_, by decide⟩ <;> simp [chunk_text, chunkAux, t6]

/-- C3 amended: whenever chunk `i` has full length `size` (it is not
truncated by the end of the text) and `overlap > 0`, chunks `i` and
`i+1` both exist and share exactly `overlap` characters (the suffix of
chunk `i` is the prefix of chunk `i+1`); truncated chunks may share
fewer. Moreover concatenating the first chunk with every later chunk
stripped of its first `overlap` characters reconstructs the text
exactly, for every text and all `overlap < size`. -/
theorem c3_amended (T : List Char) (size overlap : Nat) (h : overlap < size) :
    (∀ i, 0 < overlap → i * (size - overlap) + size ≤ T.length →
      ∃ a b, (chunk_text T size overlap).get? i = some a ∧
             (chunk_text T size overlap).get? (i + 1) = some b ∧
             a.length = size ∧
             a.drop (size - overlap) = b.take overlap ∧
             (b.take overlap).length = overlap) ∧
    reBuild overlap (chunk_text T size overlap) = T := by
  exact ⟨fun i ho hfull => chunk_overlap_full T size overlap i h ho hfull,
         chunk_text_reBuild T size overlap h⟩

/-- C3 amended witness at the concrete input `t10`, `size = 5`,
`overlap = 2`, chunk pair (0, 1). -/
theorem c3_amended_witness :
    (∃ a b, (chunk_text t10 5 2).get? 0 = some a ∧
            (chunk_text t10 5 2).get? 1 = some b ∧
            a.length = 5 ∧
            a.drop (5 - 2) = b.take 2 ∧ (b.take 2).length = 2) ∧
    reBuild 2 (chunk_text t10 5 2) = t10 :=
  ⟨(c3_amended t10 5 2 (by decide)).1 0 (by decide) (by decide),
   (c3_amended t10 5 2 (by decide)).2⟩

theorem sumSq_nonneg (v : List ℝ) : 0 ≤ (v.map (fun x => x ^ 2)).sum := by
  apply List.sum_nonneg
  intro z hz
  obtain ⟨w, _, rfl⟩ := List.mem_map.mp hz
  positivity

theorem sumSq_pos (v : List ℝ) (x : ℝ) (hx : x ∈ v) (hx0 : x ≠ 0) :
    0 < (v.map (fun a => a ^ 2)).sum := by
  induction v with
  | nil => simp at hx
  | cons y rest ih =>
    simp only [List.map_cons, List.sum_cons]
    rcases List.mem_cons.mp hx with rfl | hmem
    · have h1 : 0 < x ^ 2 := by positivity
      have h2 : 0 ≤ (rest.map (fun a => a ^ 2)).sum := sumSq_nonneg rest
      linarith
    · have h1 := ih hmem
      have h2 : 0 ≤ y ^ 2 := sq_nonneg y
      linarith

theorem l2norm_eq_zero_of_all_zero (v : List ℝ) (hv : ∀ x ∈ v, x = 0) :
    l2norm v = 0 := by
  rw [l2norm]
  have h0 : (v.map (fun x => x ^ 2)).sum = 0 := by
    apply List.sum_eq_zero
    intro z hz
    obtain ⟨w, hw, rfl⟩ := List.mem_map.mp hz
    rw [hv w hw]
    ring
  rw [h0, Real.sqrt_zero]

theorem list_sum_map_div (l : List ℝ) (c : ℝ) :
    (l.map (fun x => x / c)).sum = l.sum / c := by
  induction l with
  | nil => simp
  | cons y rest ih => simp [ih, add_div]

theorem l2norm_normalizeRow (v : List ℝ) (h : ∃ x ∈ v, x ≠ 0) :
    l2norm (normalizeRow v) = 1 := by
  obtain ⟨x, hx, hx0⟩ := h
  have hs : 0 < (v.map (fun a => a ^ 2)).sum := sumSq_pos v x hx hx0
  have hn : 0 < l2norm v := Real.sqrt_pos.mpr hs
  rw [normalizeRow]
  simp only [if_neg (ne_of_gt hn)]
  rw [l2norm, List.map_map]
  have he : ((fun x => x ^ 2) ∘ fun x => x / l2norm v) =
      fun x => x ^ 2 / l2norm v ^ 2 := by
    funext z
    simp [div_pow]
  rw [he]
  have he2 : (v.map fun x => x ^ 2 / l2norm v ^ 2) =
      ((v.map fun x => x ^ 2).map fun y => y / l2norm v ^ 2) := by
    rw [List.map_map]
    rfl
  rw [he2, list_sum_map_div]
  have hsq : l2norm v ^ 2 = (v.map (fun a => a ^ 2)).sum := Real.sq_sqrt hs.le
  rw [hsq, div_self (ne_of_gt hs), Real.sqrt_one]

theorem normalizeRow_all_zero (v : List ℝ) (hv : ∀ x ∈ v, x = 0) :
    normalizeRow v = v := by
  rw [normalizeRow]
  simp only [l2norm_eq_zero_of_all_zero v hv, if_pos rfl]
  simp

theorem pyBatches_flatten {α : Type} (bsPred : Nat) :
    ∀ (n : Nat) (l : List α), l.length ≤ n → (pyBatches bsPred l).flatten = l := by
  intro n
  induction n with
  | zero =>
    intro l hl
    have h0 : l = [] := List.eq_nil_of_length_eq_zero (Nat.le_zero.mp hl)
    subst h0
    simp [pyBatches]
  | succ n ih =>
    intro l hl
    match l with
    | [] => simp [pyBatches]
    | c :: rest =>
      rw [pyBatches]
      simp only [List.flatten_cons]
      rw [ih (rest.drop bsPred) (by simp only [List.length_drop]
                                    simp only [List.length_cons] at hl
                                    omega)]
      have : rest.drop bsPred = (c :: rest).drop (bsPred + 1) := (List.drop_succ_cons ..).symm
      rw [this, List.take_append_drop]

theorem indexedVectors_eq (embed1 : String → List ℝ) (bsPred : Nat)
    (texts : List String) :
    indexedVectors embed1 bsPred texts = texts.map (fun t => normalizeRow (embed1 t)) := by
  rw [indexedVectors]
  have h1 : (fun batch => normalize_embeddings (batch.map embed1)) =
      fun batch : List String => batch.map (fun t => normalizeRow (embed1 t)) := by
    funext batch
    rw [normalize_embeddings, List.map_map]
    rfl
  rw [h1, ← List.map_flatten, pyBatches_flatten bsPred texts.length texts le_rfl]

/-- C9: every nonzero row is normalized to exact unit L2 norm, the
all-zero row is mapped to itself with no division by zero (the zero
norm is replaced by 1 before dividing), and both the vectors
`_index_new_docs` stores into the FAISS index and the query vectors
`search_similarity` sends to it are exactly the normalized embeddings,
hence unit-length whenever the raw embedding is nonzero. -/
theorem c9_normalized :
    (∀ v : List ℝ, (∃ x ∈ v, x ≠ 0) → l2norm (normalizeRow v) = 1) ∧
    (∀ v : List ℝ, (∀ x ∈ v, x = 0) → normalizeRow v = v) ∧
    (∀ (embed1 : String → List ℝ) (bsPred : Nat) (texts : List String),
      indexedVectors embed1 bsPred texts = texts.map (fun t => normalizeRow (embed1 t))) ∧
    (∀ (embed1 : String → List ℝ) (q : String),
      queryVectors embed1 q = [normalizeRow (embed1 q)]) :=
  ⟨l2norm_normalizeRow, normalizeRow_all_zero, indexedVectors_eq,
   fun embed1 q => by simp [queryVectors, normalize_embeddings]⟩

/-- C9 witness at the concrete nonzero row `[3, 4]` and the zero row
`[0, 0]`. -/
theorem c9_normalized_witness :
    l2norm (normalizeRow [(3 : ℝ), 4]) = 1 ∧ normalizeRow [(0 : ℝ), 0] = [0, 0] :=
  ⟨c9_normalized.1 [(3 : ℝ), 4] ⟨3, by simp, by norm_num⟩,
   c9_normalized.2.1 [(0 : ℝ), 0] (by simp)⟩

theorem foldr_max_append (l : List DbRow) (r : DbRow) :
    (l ++ [r]).foldr (fun x m => max x.id m) 0 =
      max (l.foldr (fun x m => max x.id m) 0) r.id := by
  induction l with
  | nil => simp [Nat.max_comm]
  | cons a l ih =>
    simp only [List.cons_append, List.foldr_cons, ih]
    omega

theorem maxId_dsAdd (s : DStore) (c : String) (m : Option PyVal) (s' : DStore) (i : Nat)
    (h : dsAdd s c m = .ok (s', i)) : i = maxId s + 1 ∧ maxId s' = maxId s + 1 := by
  rw [dsAdd] at h
  cases hj : jsonDumps (pyOrEmptyDict m) with
  | none => rw [hj] at h; simp at h
  | some mj =>
    rw [hj] at h
    simp only [Except.ok.injEq] at h
    rw [dsInsertRow] at h
    simp only [Prod.mk.injEq] at h
    obtain ⟨hs', hi⟩ := h
    subst hs'
    subst hi
    refine ⟨rfl, ?_⟩
    simp only [maxId]
    rw [foldr_max_append]
    exact Nat.max_eq_right (Nat.le_succ _)

theorem dsRunIds_increasing : ∀ (ops : List DsOp) (s : DStore),
    (dsRunIds s ops).Pairwise (· < ·) ∧ (∀ i ∈ dsRunIds s ops, maxId s < i) := by
  intro ops
  induction ops with
  | nil => intro s; simp [dsRunIds]
  | cons op ops ih =>
    intro s
    match op with
    | .restart =>
      have hr : dsRunIds s (.restart :: ops) = dsRunIds s ops := by
        simp [dsRunIds, dsStep]
      rw [hr]
      exact ih s
    | .add c m =>
      cases hadd : dsAdd s c m with
      | error e =>
        have hr : dsRunIds s (.add c m :: ops) = dsRunIds s ops := by
          simp [dsRunIds, dsStep, hadd]
        rw [hr]
        exact ih s
      | ok p =>
        obtain ⟨s', i⟩ := p
        obtain ⟨hi, hmax⟩ := maxId_dsAdd s c m s' i hadd
        have hrun : dsRunIds s (.add c m :: ops) = i :: dsRunIds s' ops := by
          simp [dsRunIds, dsStep, hadd]
        rw [hrun]
        obtain ⟨hp, hall⟩ := ih s'
        refine ⟨List.pairwise_cons.mpr ⟨fun j hj => ?_, hp⟩, ?_⟩
        · have := hall j hj
          omega
        · intro j hj
          rcases List.mem_cons.mp hj with rfl | hj2
          · omega
          · have := hall j hj2
            omega

/-- C7: over every sequence of `DocumentStore.add` calls and restarts
starting from a fresh store, the issued ids are strictly increasing (so
each `add` returns an id strictly greater than every previously issued
id) and no id is ever reused. Restarts reload the committed rows, and
the next id is one more than the largest persisted rowid, so the
property survives restarts. -/
theorem c7_id_monotone (ops : List DsOp) :
    (dsRunIds dsEmpty ops).Pairwise (· < ·) ∧ (dsRunIds dsEmpty ops).Nodup :=
  have h := dsRunIds_increasing ops dsEmpty
  ⟨h.1, h.1.imp (fun h' => Nat.ne_of_lt h')⟩

/-- C8 counterexample: `add` with a metadata value that `json.dumps`
cannot serialize (here a Python set, which is truthy so `metadata or
{}` keeps it) raises TypeError and the insert fails, contrary to the
claim that every metadata value degrades to the empty mapping. -/
theorem c8_cex :
    dsAdd dsEmpty "x" (some (.atom (.aSetLit [1]))) = .error () := by rfl

/-- C8 amended: absent (None) or falsy metadata degrades to the empty
mapping `"\x7b\x7d"` and the insert succeeds; truthy serializable
metadata is stored as its JSON; truthy non-serializable metadata makes
`json.dumps` raise, the insert fails and the store is unchanged. -/
theorem c8_amended (s : DStore) (c : String) (md : Option PyVal) :
    ((md = none ∨ ∃ v, md = some v ∧ pyTruthy v = false) →
      dsAdd s c md = .ok (⟨s.docs ++ [⟨maxId s + 1, c, "\x7b\x7d"⟩],
                           s.fts ++ [⟨maxId s + 1, c, "\x7b\x7d"⟩]⟩, maxId s + 1)) ∧
    (∀ v j, md = some v → pyTruthy v = true → jsonDumps v = some j →
      dsAdd s c md = .ok (⟨s.docs ++ [⟨maxId s + 1, c, j⟩],
                           s.fts ++ [⟨maxId s + 1, c, j⟩]⟩, maxId s + 1)) ∧
    (∀ v, md = some v → pyTruthy v = true → jsonDumps v = none →
      dsAdd s c md = .error ()) := by
  refine ⟨?_, ?_, ?_⟩
  · rintro (rfl | ⟨v, rfl, hv⟩)
    · rfl
    · simp [dsAdd, pyOrEmptyDict, hv, dsInsertRow]
      rfl
  · rintro v j rfl hv hj
    simp [dsAdd, pyOrEmptyDict, hv, hj, dsInsertRow]
  · rintro v rfl hv hj
    simp [dsAdd, pyOrEmptyDict, hv, hj]

/-- C8 amended witness: adding with absent metadata on the fresh store
succeeds and stores the empty mapping. -/
theorem c8_amended_witness :
    dsAdd dsEmpty "a" none =
      .ok (⟨dsEmpty.docs ++ [⟨maxId dsEmpty + 1, "a", "\x7b\x7d"⟩],
            dsEmpty.fts ++ [⟨maxId dsEmpty + 1, "a", "\x7b\x7d"⟩]⟩, maxId dsEmpty + 1) :=
  (c8_amended dsEmpty "a" none).1 (Or.inl rfl)

/-- C6 counterexample: the claim fails on two load paths. (a) The
explicit `FaissRAG.load` path does not fall back at all: with the file
absent it fails fatally with FileNotFoundError (and similarly for a
corrupt or non-IndexIDMap file). (b) The constructor path with an
absent file does fall back to an empty index but signals nothing (the
message is only printed when an existing file fails to load). -/
theorem c6_cex :
    ragLoad none = .error .fileNotFound ∧
    initIndex none = (([] : List (Int × List ℚ)), false) :=
  ⟨rfl, rfl⟩

/-- C6 amended: only the constructor path (`_init_index`) degrades
gracefully: when the persisted file exists but is corrupt, incompatible
or otherwise unloadable it discards it, creates an empty index and
signals the degradation (a printed message); when the file is absent it
creates an empty index silently; and a loadable file is used as-is.
The explicit `load` method performs no fallback: absent, corrupt and
non-IndexIDMap files all raise to the caller. -/
theorem c6_amended :
    (∀ f d, vload f = .ok d → initIndex f = (d, false)) ∧
    (∀ f e, f ≠ none → vload f = .error e → initIndex f = (([] : List (Int × List ℚ)), true)) ∧
    initIndex none = (([] : List (Int × List ℚ)), false) ∧
    (∀ f e, vload f = .error e → ragLoad f = .error e) := by
  refine ⟨?_, ?_, rfl, ?_⟩
  · intro f d h
    match f with
    | none => exact absurd h (by simp [vload])
    | some (.good d') =>
      simp only [vload, Except.ok.injEq] at h
      subst h
      rfl
    | some (.goodNotIdMap _) => exact absurd h (by simp [vload])
    | some .corrupt => exact absurd h (by simp [vload])
  · intro f e hne h
    match f with
    | none => exact absurd rfl hne
    | some (.good d') => exact absurd h (by simp [vload])
    | some (.goodNotIdMap _) => rfl
    | some .corrupt => rfl
  · intro f e h
    exact h

/-- C6 amended witness: a corrupt existing file at construction time
falls back to the empty index with the degradation message, and the
explicit load of an absent file propagates FileNotFoundError. -/
theorem c6_amended_witness :
    initIndex (some .corrupt) = (([] : List (Int × List ℚ)), true) ∧
    ragLoad none = .error .fileNotFound :=
  ⟨c6_amended.2.1 (some .corrupt) .readFailed (by simp) rfl,
   c6_amended.2.2.2 none .fileNotFound rfl⟩

theorem skLoop_eq_take_filter (subject : Option String) (k : Nat) :
    ∀ (rows : List KRow) (cnt : Nat), cnt < k →
      skLoop subject k cnt rows =
        (rows.filter (fun r => !skipBySubject subject r.md)).take (k - cnt) := by
  intro rows
  induction rows with
  | nil => intro cnt _; simp [skLoop]
  | cons r rest ih =>
    intro cnt hcnt
    cases hskip : skipBySubject subject r.md with
    | true =>
      rw [List.filter_cons_of_neg (by simp [hskip])]
      simp only [skLoop, hskip, if_true]
      rw [ih cnt hcnt]
    | false =>
      rw [List.filter_cons_of_pos (by simp [hskip])]
      simp only [skLoop, hskip, Bool.false_eq_true, if_false]
      have h2 : k - cnt = (k - cnt - 1) + 1 := by omega
      conv_rhs => rw [h2, List.take_succ_cons]
      rcases le_or_lt k (cnt + 1) with hk | hk
      · rw [if_pos hk]
        have h3 : k - cnt - 1 = 0 := by omega
        rw [h3, List.take_zero]
      · rw [if_neg (by omega), ih (cnt + 1) hk]
        congr 1

/-- C5: `search_keyword` takes the first `k*5` rows of the ranked FTS
match list, when given a (truthy) subject filter keeps exactly the
candidates whose metadata subject matches case-insensitively, truncates
to at most `k`, and the result is always a sublist of the fetched
candidates (full-text relevance order is preserved). With no filter it
is simply the first `min(k, k*5)` candidates. -/
theorem c5_search_keyword (rows : List KRow) (k : Nat) :
    (∀ s : String, s ≠ "" →
      search_keyword rows k (some s) =
        ((rows.take (k * 5)).filter
          (fun r => (subjOf r.md).toLower == s.toLower)).take k) ∧
    search_keyword rows k none = (rows.take (k * 5)).take k ∧
    (∀ subject, (search_keyword rows k subject).Sublist (rows.take (k * 5))) := by
  have hmain : ∀ (subject : Option String),
      search_keyword rows k subject =
        ((rows.take (k * 5)).filter (fun r => !skipBySubject subject r.md)).take k := by
    intro subject
    match k with
    | 0 => simp [search_keyword, skLoop]
    | k + 1 =>
      rw [search_keyword, skLoop_eq_take_filter subject (k + 1) _ 0 (Nat.succ_pos k),
        Nat.sub_zero]
  refine ⟨?_, ?_, ?_⟩
  · intro s hs
    rw [hmain (some s)]
    congr 1
    apply List.filter_congr
    intro r _
    have hne : (s != "") = true := bne_iff_ne.mpr hs
    show (!((s != "") && ((subjOf r.md).toLower != s.toLower))) =
      ((subjOf r.md).toLower == s.toLower)
    rw [hne, Bool.true_and, bne, Bool.not_not]
  · rw [hmain none]
    congr 1
    calc (rows.take (k * 5)).filter (fun r => !skipBySubject none r.md)
        = (rows.take (k * 5)).filter (fun _ => true) := by
          apply List.filter_congr; intro r _; rfl
      _ = rows.take (k * 5) := List.filter_true _
  · intro subject
    rw [hmain subject]
    exact ((List.take_sublist _ _).trans (List.filter_sublist _))

/-- C5 witness: with rows tagged Math and CS, a filter "math" keeps the
case-insensitively matching candidate. -/
theorem c5_search_keyword_witness :
    search_keyword krows2 1 (some "math") =
      ((krows2.take (1 * 5)).filter
        (fun r => (subjOf r.md).toLower == "math".toLower)).take 1 :=
  (c5_search_keyword krows2 1).1 "math" (by decide)

theorem skipBySubject_empty (md : Meta) : skipBySubject (some "") md = false := rfl

theorem skipBySubject_none (md : Meta) : skipBySubject none md = false := rfl

theorem skLoop_empty_eq_none (k : Nat) :
    ∀ (rows : List KRow) (cnt : Nat),
      skLoop (some "") k cnt rows = skLoop none k cnt rows := by
  intro rows
  induction rows with
  | nil => intro cnt; rfl
  | cons r rest ih =>
    intro cnt
    rw [skLoop, skLoop, skipBySubject_empty, skipBySubject_none]
    simp only [Bool.false_eq_true, if_false, ih]

theorem simLoop_empty_eq_none (docGet : Int → Option DocRec) (k : Nat) :
    ∀ (pairs : List (ℚ × Int)) (cnt : Nat),
      simLoop docGet (some "") k cnt pairs = simLoop docGet none k cnt pairs := by
  intro pairs
  induction pairs with
  | nil => intro cnt; rfl
  | cons p rest ih =>
    intro cnt
    obtain ⟨score, i⟩ := p
    rw [simLoop, simLoop]
    cases hi : (i == -1) with
    | true => simp only [if_true, ih]
    | false =>
      simp only [Bool.false_eq_true, if_false]
      cases hdoc : docGet i with
      | none => simp only [ih]
      | some d =>
        simp only [skipBySubject_empty, skipBySubject_none, Bool.false_eq_true,
          if_false, ih]

theorem ldStep_empty_eq_none : ldStep (some "") = ldStep none := by
  funext acc r
  rw [ldStep, ldStep, skipBySubject_empty, skipBySubject_none]

/-- C10: for each of the three search/listing entry points, passing the
empty string as the subject filter behaves exactly like passing no
filter: Python's truthiness test `if subject:` treats `""` as absent,
so the candidate fetch size and the filtering loop are identical. -/
theorem c10_empty_subject_filter :
    (∀ (vsearch : Nat → List (ℚ × Int)) (docGet : Int → Option DocRec) (k : Nat),
      search_similarity vsearch docGet k (some "") =
        search_similarity vsearch docGet k none) ∧
    (∀ (rows : List KRow) (k : Nat),
      search_keyword rows k (some "") = search_keyword rows k none) ∧
    (∀ rows : List KRow,
      list_documents rows (some "") = list_documents rows none) := by
  refine ⟨?_, ?_, ?_⟩
  · intro vsearch docGet k
    rw [search_similarity, search_similarity]
    show simLoop docGet (some "") k 0 (vsearch k) = simLoop docGet none k 0 (vsearch k)
    exact simLoop_empty_eq_none docGet k (vsearch k) 0
  · intro rows k
    rw [search_keyword, search_keyword]
    exact skLoop_empty_eq_none k (rows.take (k * 5)) 0
  · intro rows
    rw [list_documents, list_documents, ldStep_empty_eq_none]

theorem foldl_updIns_fresh {α β : Type} (key : α → Int) (val : α → β) :
    ∀ (l : List α) (m : List (Int × β)),
      (l.map key).Nodup →
      (∀ a ∈ l, ∀ p ∈ m, p.1 ≠ key a) →
      l.foldl (fun acc it => updIns acc (key it) (val it)) m =
        m ++ l.map (fun a => (key a, val a)) := by
  intro l
  induction l with
  | nil => intro m _ _; simp
  | cons a rest ih =>
    intro m hnd hfresh
    rw [List.foldl_cons]
    have hfa : updIns m (key a) (val a) = m ++ [(key a, val a)] := by
      rw [updIns, if_neg]
      intro hany
      obtain ⟨p, hp, hbeq⟩ := List.any_eq_true.mp hany
      exact hfresh a (List.mem_cons_self a rest) p hp (beq_iff_eq.mp hbeq)
    rw [hfa, ih (m ++ [(key a, val a)]) (by
        simp only [List.map_cons, List.nodup_cons] at hnd
        exact hnd.2)
      (by
        intro b hb p hp
        rcases List.mem_append.mp hp with hpm | hpa
        · exact hfresh b (List.mem_cons_of_mem a hb) p hpm
        · have hpa' : p = (key a, val a) := by simpa using hpa
          subst hpa'
          simp only [List.map_cons, List.nodup_cons] at hnd
          intro he
          have he' : key a = key b := he
          have hmem : key a ∈ List.map key rest := by
            rw [he']
            exact List.mem_map_of_mem key hb
          exact hnd.1 hmem)]
    simp

theorem mergedSem_eq (sem : List SemHit) (hsem : (semIds sem).Nodup) :
    mergedSem sem =
      sem.map (fun s => (s.id, (⟨s.id, s.score, none, s.content, s.md⟩ : MEnt))) := by
  have h := foldl_updIns_fresh (fun s : SemHit => s.id)
    (fun s => (⟨s.id, s.score, none, s.content, s.md⟩ : MEnt)) sem [] hsem (by simp)
  simpa [mergedSem] using h

theorem enum_map_sndid (kw : List KwHit) :
    kw.enum.map (fun p => p.2.id) = kwIds kw := by
  rw [kwIds, show (fun p : Nat × KwHit => p.2.id) =
    ((fun w : KwHit => w.id) ∘ Prod.snd) from rfl, ← List.map_map, List.enum_map_snd]

theorem kwScoreDict_eq (kw : List KwHit) (hkw : (kwIds kw).Nodup) :
    kwScoreDict kw = kw.enum.map (fun p => (p.2.id, 1 / (1 + (p.1 : ℚ)))) := by
  have h := foldl_updIns_fresh (fun p : Nat × KwHit => p.2.id)
    (fun p => 1 / (1 + (p.1 : ℚ))) kw.enum []
    (by rw [enum_map_sndid]; exact hkw) (by simp)
  simpa [kwScoreDict] using h

theorem findIdx?_cons_eq (p : KwHit → Bool) (a : KwHit) (l : List KwHit) :
    (a :: l).findIdx? p = if p a then some 0 else (l.findIdx? p).map (· + 1) := by
  rw [List.findIdx?_cons]
  rcases h : p a <;> simp [h]

theorem find?_enumFrom_map (kw : List KwHit) (i : Int) :
    ∀ n : Nat,
      ((kw.enumFrom n).map (fun p => (p.2.id, 1 / (1 + (p.1 : ℚ))))).find?
          (fun p => p.1 == i) =
        (kw.findIdx? (fun w => w.id == i)).map
          (fun r => (i, 1 / (1 + ((n + r : Nat) : ℚ)))) := by
  induction kw with
  | nil => intro n; simp
  | cons w rest ih =>
    intro n
    rw [show (w :: rest).enumFrom n = (n, w) :: rest.enumFrom (n + 1) from rfl,
      List.map_cons, findIdx?_cons_eq]
    cases hw : (w.id == i) with
    | true =>
      rw [List.find?_cons_of_pos _ (by simpa using hw)]
      have hid : w.id = i := beq_iff_eq.mp hw
      simp [hw, hid]
    | false =>
      rw [List.find?_cons_of_neg _ (by simpa using hw), ih (n + 1)]
      simp only [hw, Bool.false_eq_true, if_false, Option.map_map]
      cases h : rest.findIdx? (fun w => w.id == i) with
      | none => rfl
      | some r =>
        have harith : n + 1 + r = n + (r + 1) := by omega
        simp [harith]
        ring

theorem dictGetD_kwScoreDict (kw : List KwHit) (hkw : (kwIds kw).Nodup) (i : Int) :
    dictGetD (kwScoreDict kw) i 0 = kwRankScore kw i := by
  rw [dictGetD, kwScoreDict_eq kw hkw,
    show kw.enum = kw.enumFrom 0 from rfl, find?_enumFrom_map kw i 0]
  cases h : kw.findIdx? (fun w => w.id == i) with
  | none => simp [kwRankScore, h]
  | some r => simp [kwRankScore, h]

theorem find?_eq_some_self (sem : List SemHit) (hsem : (semIds sem).Nodup)
    (s : SemHit) (hs : s ∈ sem) :
    sem.find? (fun x => x.id == s.id) = some s := by
  induction sem with
  | nil => simp at hs
  | cons a rest ih =>
    simp only [semIds, List.map_cons, List.nodup_cons] at hsem
    cases ha : (a.id == s.id) with
    | true =>
      rw [@List.find?_cons_of_pos _ (fun x => x.id == s.id) a rest ha]
      have haid : a.id = s.id := beq_iff_eq.mp ha
      rcases List.mem_cons.mp hs with rfl | hmem
      · rfl
      · have hmem2 : a.id ∈ List.map (fun s => s.id) rest := by
          rw [haid]
          exact List.mem_map_of_mem (fun s => s.id) hmem
        exact absurd hmem2 hsem.1
    | false =>
      rw [@List.find?_cons_of_neg _ (fun x => x.id == s.id) a rest (by simp [ha])]
      rcases List.mem_cons.mp hs with rfl | hmem
      · simp at ha
      · exact ih hsem.2 hmem

theorem semScoreOf_mem (sem : List SemHit) (hsem : (semIds sem).Nodup)
    (s : SemHit) (hs : s ∈ sem) : semScoreOf sem s.id = s.score := by
  rw [semScoreOf, find?_eq_some_self sem hsem s hs]
  rfl

theorem semScoreOf_not_mem (sem : List SemHit) (i : Int) (h : i ∉ semIds sem) :
    semScoreOf sem i = 0 := by
  rw [semScoreOf, List.find?_eq_none.mpr]
  · rfl
  · intro x hx hbeq
    exact h ((beq_iff_eq.mp hbeq) ▸ List.mem_map_of_mem (fun s => s.id) hx)

theorem kwRankScore_not_mem (kw : List KwHit) (i : Int) (h : i ∉ kwIds kw) :
    kwRankScore kw i = 0 := by
  have hidx : kw.findIdx? (fun w => w.id == i) = none := by
    rw [List.findIdx?_eq_none_iff]
    intro w hw
    cases hbeq : (w.id == i) with
    | true => exact absurd ((beq_iff_eq.mp hbeq) ▸ List.mem_map_of_mem (fun w => w.id) hw) h
    | false => rfl
  simp [kwRankScore, hidx]

theorem kwRankScore_nonneg (kw : List KwHit) (i : Int) : 0 ≤ kwRankScore kw i := by
  rw [kwRankScore]
  cases h : kw.findIdx? (fun w => w.id == i) with
  | none => exact le_refl 0
  | some r => positivity

theorem kwRankScore_pos_of_mem (kw : List KwHit) (i : Int) (h : i ∈ kwIds kw) :
    0 < kwRankScore kw i := by
  obtain ⟨w, hw, hwid⟩ := List.mem_map.mp h
  have hidx : kw.findIdx? (fun x => x.id == i) ≠ none := by
    intro hnone
    rw [List.findIdx?_eq_none_iff] at hnone
    have := hnone w hw
    rw [hwid] at this
    simp at this
  cases hidx2 : kw.findIdx? (fun x => x.id == i) with
  | none => exact absurd hidx2 hidx
  | some r =>
    rw [kwRankScore, hidx2]
    positivity

theorem kwRankScore_pos_iff (kw : List KwHit) (i : Int) :
    0 < kwRankScore kw i ↔ i ∈ kwIds kw := by
  constructor
  · intro hpos
    by_contra hnm
    rw [kwRankScore_not_mem kw i hnm] at hpos
    exact lt_irrefl 0 hpos
  · exact kwRankScore_pos_of_mem kw i

theorem stateOf_keys (sem : List SemHit) (done : List KwHit) (kwsc : List (Int × ℚ)) :
    (stateOf sem done kwsc).map (fun p => p.1) =
      semIds sem ++
        (done.filter (fun w => !decide (w.id ∈ semIds sem))).map (fun w => w.id) := by
  rw [stateOf, List.map_append, List.map_map, List.map_map]
  rfl

theorem any_key_eq_decide {β : Type} (m : List (Int × β)) (i : Int) :
    m.any (fun p => p.1 == i) = decide (i ∈ m.map (fun p => p.1)) := by
  cases h : decide (i ∈ m.map (fun p => p.1)) with
  | true =>
    obtain ⟨p, hp, hpi⟩ := List.mem_map.mp (of_decide_eq_true h)
    exact List.any_eq_true.mpr ⟨p, hp, by simp [hpi]⟩
  | false =>
    have hnm := of_decide_eq_false h
    apply List.any_eq_false.mpr
    intro p hp hbeq
    exact hnm (List.mem_map.mpr ⟨p, hp, beq_iff_eq.mp hbeq⟩)

theorem kwStep_state (sem : List SemHit) (kwsc : List (Int × ℚ))
    (hsem : (semIds sem).Nodup)
    (done : List KwHit) (it : KwHit) (hnew : it.id ∉ kwIds done) :
    kwStep kwsc (stateOf sem done kwsc) it = stateOf sem (done ++ [it]) kwsc := by
  have hfilter_app :
      (done ++ [it]).filter (fun w => !decide (w.id ∈ semIds sem)) =
        done.filter (fun w => !decide (w.id ∈ semIds sem)) ++
          [it].filter (fun w => !decide (w.id ∈ semIds sem)) :=
    List.filter_append ..
  by_cases hmem : it.id ∈ semIds sem
  · have hany : (stateOf sem done kwsc).any (fun p => p.1 == it.id) = true := by
      rw [any_key_eq_decide, stateOf_keys]
      exact decide_eq_true (List.mem_append.mpr (Or.inl hmem))
    rw [kwStep, if_pos hany]
    rw [stateOf, List.map_append, List.map_map, List.map_map]
    rw [show stateOf sem (done ++ [it]) kwsc =
      sem.map (fun s => (s.id, (⟨s.id, s.score,
        if s.id ∈ kwIds (done ++ [it]) then some (dictGetD kwsc s.id 0) else none,
        s.content, s.md⟩ : MEnt))) ++
      ((done ++ [it]).filter (fun w => !decide (w.id ∈ semIds sem))).map
        (fun w => (w.id, (⟨w.id, 0, some (dictGetD kwsc w.id 0), w.content, w.md⟩ : MEnt)))
      from rfl]
    congr 1
    · apply List.map_congr_left
      intro s hs
      by_cases hsid : s.id = it.id
      · have h1 : it.id ∈ kwIds (done ++ [it]) := by
          rw [kwIds, List.map_append]
          exact List.mem_append.mpr (Or.inr (by simp))
        simp [hsid, h1]
      · have h2 : (s.id ∈ kwIds (done ++ [it])) ↔ (s.id ∈ kwIds done) := by
          rw [kwIds, List.map_append]
          simp [kwIds, hsid]
        simp only [Function.comp_apply, beq_iff_eq, hsid, if_false]
        simp [hsid, h2]
    · rw [hfilter_app]
      have hit : [it].filter (fun w => !decide (w.id ∈ semIds sem)) = [] := by
        simp [hmem]
      rw [hit, List.append_nil]
      apply List.map_congr_left
      intro w hw
      have hwnm : w.id ∉ semIds sem := by
        have := (List.mem_filter.mp hw).2
        simpa using this
      have hwne : w.id ≠ it.id := fun he => hwnm (he ▸ hmem)
      simp [hwne]
  · have hany : (stateOf sem done kwsc).any (fun p => p.1 == it.id) = false := by
      rw [any_key_eq_decide, stateOf_keys]
      apply decide_eq_false
      intro hin
      rcases List.mem_append.mp hin with h1 | h2
      · exact hmem h1
      · obtain ⟨w, hw, hwid⟩ := List.mem_map.mp h2
        have hwdone : w ∈ done := (List.mem_filter.mp hw).1
        exact hnew (hwid ▸ List.mem_map_of_mem (fun w => w.id) hwdone)
    rw [kwStep, if_neg (by simp [hany])]
    rw [stateOf, stateOf, hfilter_app]
    have hit : [it].filter (fun w => !decide (w.id ∈ semIds sem)) = [it] := by
      simp [hmem]
    rw [hit, List.map_append, List.append_assoc]
    congr 1
    apply List.map_congr_left
    intro s hs
    have hsid : s.id ≠ it.id := by
      intro he
      exact hmem (he ▸ List.mem_map_of_mem (fun s => s.id) hs)
    have h2 : (s.id ∈ kwIds (done ++ [it])) ↔ (s.id ∈ kwIds done) := by
      rw [kwIds, List.map_append]
      simp [kwIds, hsid]
    simp [h2]

theorem mergedDict_eq (sem : List SemHit) (kw : List KwHit)
    (hsem : (semIds sem).Nodup) (hkw : (kwIds kw).Nodup) :
    mergedDict sem kw = stateOf sem kw (kwScoreDict kw) := by
  have hfold : ∀ (rest done : List KwHit),
      (kwIds done ++ kwIds rest).Nodup →
      rest.foldl (kwStep (kwScoreDict kw)) (stateOf sem done (kwScoreDict kw)) =
        stateOf sem (done ++ rest) (kwScoreDict kw) := by
    intro rest
    induction rest with
    | nil => intro done _; rw [List.foldl_nil, List.append_nil]
    | cons it rest' ih =>
      intro done hnd
      rw [List.foldl_cons]
      have hnd2 := hnd
      rw [List.nodup_append] at hnd2
      have hnew : it.id ∉ kwIds done := by
        intro hin
        exact hnd2.2.2 hin
          (List.mem_map_of_mem (fun w => w.id) (List.mem_cons_self it rest'))
      rw [kwStep_state sem (kwScoreDict kw) hsem done it hnew]
      have hnd' : (kwIds (done ++ [it]) ++ kwIds rest').Nodup := by
        have he : kwIds (done ++ [it]) ++ kwIds rest' =
            kwIds done ++ kwIds (it :: rest') := by
          simp [kwIds]
        rw [he]
        exact hnd
      rw [ih (done ++ [it]) hnd']
      congr 1
      simp
  have h0 : stateOf sem [] (kwScoreDict kw) = mergedSem sem := by
    rw [stateOf, mergedSem_eq sem hsem]
    simp [kwIds]
  rw [mergedDict, ← h0, hfold kw [] (by simpa [kwIds] using hkw), List.nil_append]

theorem hybridPre_eq_union (sem : List SemHit) (kw : List KwHit) (alpha : ℚ)
    (hsem : (semIds sem).Nodup) (hkw : (kwIds kw).Nodup) :
    hybridPre sem kw alpha = unionEntries sem kw alpha := by
  rw [hybridPre, mergedDict_eq sem kw hsem hkw, stateOf, unionEntries, List.map_append,
    List.map_map, List.map_map]
  congr 1
  · apply List.map_congr_left
    intro s hs
    have hsc := semScoreOf_mem sem hsem s hs
    have hkwv : (if s.id ∈ kwIds kw then some (dictGetD (kwScoreDict kw) s.id 0)
        else none).getD 0 = kwRankScore kw s.id := by
      by_cases hm : s.id ∈ kwIds kw
      · rw [if_pos hm, Option.getD_some, dictGetD_kwScoreDict kw hkw]
      · rw [if_neg hm, Option.getD_none, kwRankScore_not_mem kw s.id hm]
    show entryToHit alpha ⟨s.id, s.score,
        if s.id ∈ kwIds kw then some (dictGetD (kwScoreDict kw) s.id 0) else none,
        s.content, s.md⟩ = specHitOf sem kw alpha s.id s.content s.md
    rw [entryToHit, specHitOf]
    simp only [hkwv, hsc]
  · apply List.map_congr_left
    intro w hw
    have hnm : w.id ∉ semIds sem := by
      have := (List.mem_filter.mp hw).2
      simpa using this
    show entryToHit alpha ⟨w.id, 0, some (dictGetD (kwScoreDict kw) w.id 0),
        w.content, w.md⟩ = specHitOf sem kw alpha w.id w.content w.md
    rw [entryToHit, specHitOf, dictGetD_kwScoreDict kw hkw,
      semScoreOf_not_mem sem w.id hnm]
    simp

theorem specHitOf_score (sem : List SemHit) (kw : List KwHit) (alpha : ℚ) (i : Int)
    (c : String) (m : Meta) :
    (specHitOf sem kw alpha i c m).score =
      alpha * semScoreOf sem i + (1 - alpha) * kwRankScore kw i := rfl

theorem specHitOf_id (sem : List SemHit) (kw : List KwHit) (alpha : ℚ) (i : Int)
    (c : String) (m : Meta) : (specHitOf sem kw alpha i c m).id = i := rfl

theorem ordIns_append_last (x : RHit) (Z : List RHit)
    (hZ : ∀ z ∈ Z, z.score ≤ x.score) :
    ∀ P : List RHit,
      List.orderedInsert scoreRel x (P ++ Z) = (List.orderedInsert scoreRel x P) ++ Z := by
  intro P
  induction P with
  | nil =>
    rw [List.nil_append]
    match Z with
    | [] => rfl
    | z :: Z' =>
      have hc : scoreRel x z := hZ z (List.mem_cons_self z Z')
      rw [List.orderedInsert, List.orderedInsert, if_pos hc]
      rfl
  | cons y P' ih =>
    rw [List.cons_append, List.orderedInsert, List.orderedInsert]
    by_cases hxy : scoreRel x y
    · rw [if_pos hxy, if_pos hxy]
      simp
    · rw [if_neg hxy, if_neg hxy, ih]
      simp

theorem ordIns_skip (x : RHit) (Z : List RHit) :
    ∀ P : List RHit, (∀ y ∈ P, ¬ scoreRel x y) →
      List.orderedInsert scoreRel x (P ++ Z) = P ++ List.orderedInsert scoreRel x Z := by
  intro P
  induction P with
  | nil => intro _; simp
  | cons y P' ih =>
    intro hP
    rw [List.cons_append, List.orderedInsert, if_neg (hP y (List.mem_cons_self y P'))]
    rw [ih (fun z hz => hP z (List.mem_cons_of_mem y hz))]
    rfl

theorem sortDesc_split_zeros :
    ∀ (l : List RHit), (∀ x ∈ l, 0 ≤ x.score) →
      pySortDesc l =
        pySortDesc (l.filter (fun x => decide (0 < x.score))) ++
          l.filter (fun x => !decide (0 < x.score)) := by
  intro l
  induction l with
  | nil => intro _; rfl
  | cons x l' ih =>
    intro hn
    have hn' : ∀ y ∈ l', 0 ≤ y.score := fun y hy => hn y (List.mem_cons_of_mem x hy)
    rw [show pySortDesc (x :: l') = List.orderedInsert scoreRel x (pySortDesc l') from rfl,
      ih hn']
    by_cases hx : 0 < x.score
    · rw [ordIns_append_last x _ ?hz _]
      case hz =>
        intro z hz
        have hz2 := List.mem_filter.mp hz
        have hznp : ¬ 0 < z.score := by simpa using hz2.2
        have hz0 : z.score = 0 := le_antisymm (not_lt.mp hznp) (hn' z hz2.1)
        rw [hz0]
        exact le_of_lt hx
      rw [List.filter_cons_of_pos (by simp [hx]), List.filter_cons_of_neg (by simp [hx])]
      rfl
    · have hx0 : x.score = 0 := le_antisymm (not_lt.mp hx) (hn x (List.mem_cons_self x l'))
      rw [ordIns_skip x _ _ ?hp]
      case hp =>
        intro y hy
        have hymem : y ∈ l'.filter (fun x => decide (0 < x.score)) :=
          (List.perm_insertionSort scoreRel _).mem_iff.mp hy
        have hypos : 0 < y.score := by simpa using (List.mem_filter.mp hymem).2
        show ¬ y.score ≤ x.score
        rw [hx0]
        exact not_le.mpr hypos
      rw [List.filter_cons_of_neg (by simp [hx]), List.filter_cons_of_pos (by simp [hx])]
      have hins : List.orderedInsert scoreRel x
          (l'.filter (fun x => !decide (0 < x.score))) =
          x :: l'.filter (fun x => !decide (0 < x.score)) := by
        have h0 := ordIns_append_last x (l'.filter (fun x => !decide (0 < x.score))) ?hz2 []
        case hz2 =>
          intro z hz
          have hz2 := List.mem_filter.mp hz
          have hznp : ¬ 0 < z.score := by simpa using hz2.2
          have hz0 : z.score = 0 := le_antisymm (not_lt.mp hznp) (hn' z hz2.1)
          rw [hz0, hx0]
        simpa using h0
      rw [hins]

theorem eq_of_perm_pairwise_gt (l₁ l₂ : List RHit) (hp : List.Perm l₁ l₂)
    (h₁ : l₁.Pairwise (fun a b => b.score < a.score))
    (h₂ : l₂.Pairwise (fun a b => b.score < a.score)) : l₁ = l₂ := by
  haveI : IsAntisymm RHit (fun a b => b.score < a.score) :=
    ⟨fun a b hab hba => absurd (lt_trans hab hba) (lt_irrefl _)⟩
  exact List.eq_of_perm_of_sorted hp h₁ h₂

theorem pairwise_gt_of_ge_nodup (l : List RHit) (hge : l.Pairwise scoreRel)
    (hnd : (l.map (fun x => x.score)).Nodup) :
    l.Pairwise (fun a b => b.score < a.score) := by
  have hne : l.Pairwise (fun a b => a.score ≠ b.score) := List.pairwise_map.mp hnd
  exact (hge.and hne).imp (fun h => lt_of_le_of_ne h.1 (Ne.symm h.2))

theorem hybrid_alpha_one (sem : List SemHit) (kw : List KwHit) (k : Nat)
    (hsem : (semIds sem).Nodup) (hkw : (kwIds kw).Nodup)
    (hsort : sem.Pairwise (fun a b => b.score ≤ a.score))
    (hpos : ∀ s ∈ sem, 0 < s.score) :
    (hybrid_search sem kw 1 k).map (fun h => h.id) =
      (semIds sem ++
        (kw.filter (fun w => !decide (w.id ∈ semIds sem))).map (fun w => w.id)).take k := by
  have hscoreS : ∀ s ∈ sem, (specHitOf sem kw 1 s.id s.content s.md).score = s.score := by
    intro s hs
    rw [specHitOf_score, semScoreOf_mem sem hsem s hs]
    ring
  have hscoreK : ∀ w ∈ kw.filter (fun w => !decide (w.id ∈ semIds sem)),
      (specHitOf sem kw 1 w.id w.content w.md).score = 0 := by
    intro w hw
    have hnm : w.id ∉ semIds sem := by simpa using (List.mem_filter.mp hw).2
    rw [specHitOf_score, semScoreOf_not_mem sem w.id hnm]
    ring
  have hsorted : (unionEntries sem kw 1).Pairwise scoreRel := by
    rw [unionEntries, List.pairwise_append]
    refine ⟨?_, ?_, ?_⟩
    · rw [List.pairwise_map]
      refine hsort.imp_of_mem ?_
      intro a b ha hb hab
      show (specHitOf sem kw 1 b.id b.content b.md).score ≤
        (specHitOf sem kw 1 a.id a.content a.md).score
      rw [hscoreS a ha, hscoreS b hb]
      exact hab
    · rw [List.pairwise_map]
      rw [List.pairwise_iff_getElem]
      intro i j hi hj hij
      show (specHitOf sem kw 1 _ _ _).score ≤ (specHitOf sem kw 1 _ _ _).score
      rw [hscoreK _ (List.getElem_mem hj), hscoreK _ (List.getElem_mem hi)]
    · intro a ha b hb
      obtain ⟨s, hs, rfl⟩ := List.mem_map.mp ha
      obtain ⟨w, hw, rfl⟩ := List.mem_map.mp hb
      show (specHitOf sem kw 1 w.id w.content w.md).score ≤
        (specHitOf sem kw 1 s.id s.content s.md).score
      rw [hscoreS s hs, hscoreK w hw]
      exact le_of_lt (hpos s hs)
  rw [hybrid_search, hybridPre_eq_union sem kw 1 hsem hkw,
    show pySortDesc (unionEntries sem kw 1) = unionEntries sem kw 1 from
      List.Sorted.insertionSort_eq hsorted,
    List.map_take]
  congr 1
  rw [unionEntries, List.map_append, List.map_map, List.map_map]
  rfl

theorem posEntry_id (sem : List SemHit) (kw : List KwHit) (w : KwHit) :
    (posEntry sem kw w).id = w.id := by
  rw [posEntry]
  cases hf : sem.find? (fun s => s.id == w.id) with
  | none => rfl
  | some s =>
    have hp := List.find?_some hf
    have hsid : s.id = w.id := beq_iff_eq.mp hp
    rw [specHitOf_id, hsid]

theorem posEntry_score (sem : List SemHit) (kw : List KwHit) (w : KwHit) :
    (posEntry sem kw w).score = kwRankScore kw w.id := by
  rw [posEntry]
  cases hf : sem.find? (fun s => s.id == w.id) with
  | none =>
    rw [specHitOf_score]
    ring
  | some s =>
    have hp := List.find?_some hf
    have hsid : s.id = w.id := beq_iff_eq.mp hp
    rw [specHitOf_score, hsid]
    ring

theorem kwRankScore_of_idx (kw : List KwHit) (i : Int) (r : Nat)
    (h : kw.findIdx? (fun w => w.id == i) = some r) :
    kwRankScore kw i = 1 / (1 + (r : ℚ)) := by
  simp [kwRankScore, h]

theorem findIdx?_getElem_self (kw : List KwHit) (hkw : (kwIds kw).Nodup) :
    ∀ (j : Nat) (hj : j < kw.length),
      kw.findIdx? (fun w => w.id == kw[j].id) = some j := by
  induction kw with
  | nil => intro j hj; simp at hj
  | cons w rest ih =>
    intro j hj
    simp only [kwIds, List.map_cons, List.nodup_cons] at hkw
    match j with
    | 0 =>
      rw [findIdx?_cons_eq]
      simp
    | j + 1 =>
      rw [findIdx?_cons_eq]
      have hj' : j < rest.length := by simpa using hj
      have hgetmem : rest[j] ∈ rest := List.getElem_mem hj'
      have hbeq : (w.id == (w :: rest)[j + 1].id) = false := by
        show (w.id == rest[j].id) = false
        have hne : w.id ≠ rest[j].id := by
          intro he
          exact hkw.1 (he ▸ List.mem_map_of_mem (fun w => w.id) hgetmem)
        simp [hne]
      rw [hbeq]
      simp only [Bool.false_eq_true, if_false, List.getElem_cons_succ]
      rw [ih hkw.2 j hj']
      rfl

theorem posEntry_pairwise_gt (sem : List SemHit) (kw : List KwHit)
    (hkw : (kwIds kw).Nodup) :
    (kw.map (posEntry sem kw)).Pairwise (fun a b => b.score < a.score) := by
  rw [List.pairwise_iff_getElem]
  intro i j hi hj hij
  simp only [List.length_map] at hi hj
  rw [List.getElem_map, List.getElem_map, posEntry_score, posEntry_score,
    kwRankScore_of_idx kw _ j (findIdx?_getElem_self kw hkw j hj),
    kwRankScore_of_idx kw _ i (findIdx?_getElem_self kw hkw i hi)]
  have h1 : (0 : ℚ) < 1 + (i : ℚ) := by positivity
  have h2 : (i : ℚ) < (j : ℚ) := by exact_mod_cast hij
  exact one_div_lt_one_div_of_lt h1 (by linarith)

theorem filter_or_perm {α : Type} (p q : α → Bool) :
    ∀ (l : List α), (∀ a ∈ l, ¬(p a = true ∧ q a = true)) →
      List.Perm (l.filter (fun a => p a || q a)) (l.filter p ++ l.filter q) := by
  intro l
  induction l with
  | nil => intro _; simp
  | cons a rest ih =>
    intro hx
    have hrest := fun b hb => hx b (List.mem_cons_of_mem a hb)
    cases hp : p a with
    | true =>
      have hq : q a = false := by
        cases hq2 : q a with
        | true => exact absurd ⟨hp, hq2⟩ (hx a (List.mem_cons_self a rest))
        | false => rfl
      rw [List.filter_cons_of_pos (by simp [hp]), List.filter_cons_of_pos hp,
        List.filter_cons_of_neg (by simp [hq]), List.cons_append]
      exact (ih hrest).cons a
    | false =>
      cases hq : q a with
      | true =>
        rw [List.filter_cons_of_pos (by simp [hq]), List.filter_cons_of_neg (by simp [hp]),
          List.filter_cons_of_pos hq]
        exact ((ih hrest).cons a).trans List.perm_middle.symm
      | false =>
        rw [List.filter_cons_of_neg (by simp [hp, hq]), List.filter_cons_of_neg (by simp [hp]),
          List.filter_cons_of_neg (by simp [hq])]
        exact ih hrest

theorem filter_single_of_find? (sem : List SemHit) (hsem : (semIds sem).Nodup) (i : Int)
    (s0 : SemHit) (h0 : sem.find? (fun s => s.id == i) = some s0) :
    sem.filter (fun s => s.id == i) = [s0] := by
  induction sem with
  | nil => simp at h0
  | cons a rest ih =>
    simp only [semIds, List.map_cons, List.nodup_cons] at hsem
    cases ha : (a.id == i) with
    | true =>
      rw [@List.find?_cons_of_pos _ (fun s => s.id == i) a rest ha] at h0
      have ha0 : a = s0 := by injection h0
      rw [@List.filter_cons_of_pos _ (fun s => s.id == i) a rest ha]
      have hrest : rest.filter (fun s => s.id == i) = [] := by
        rw [List.filter_eq_nil_iff]
        intro x hxm
        cases hbx : (x.id == i) with
        | false => simp
        | true =>
          have hxi : x.id = i := beq_iff_eq.mp hbx
          have hai : a.id = i := beq_iff_eq.mp ha
          have : a.id ∈ List.map (fun s => s.id) rest := by
            rw [hai, ← hxi]
            exact List.mem_map_of_mem (fun s => s.id) hxm
          exact absurd this hsem.1
      rw [hrest, ha0]
    | false =>
      rw [@List.find?_cons_of_neg _ (fun s => s.id == i) a rest (by simp [ha])] at h0
      rw [@List.filter_cons_of_neg _ (fun s => s.id == i) a rest (by simp [ha])]
      exact ih hsem.2 h0

theorem shared_perm (sem : List SemHit) (kw : List KwHit) (hsem : (semIds sem).Nodup) :
    ∀ (kw' : List KwHit), (kwIds kw').Nodup →
      List.Perm
        ((kw'.filter (fun w => decide (w.id ∈ semIds sem))).map (posEntry sem kw))
        ((sem.filter (fun s => decide (s.id ∈ kwIds kw'))).map
          (fun s => specHitOf sem kw 0 s.id s.content s.md)) := by
  intro kw'
  induction kw' with
  | nil =>
    intro _
    have h1 : sem.filter (fun s => decide (s.id ∈ kwIds ([] : List KwHit))) = [] := by
      rw [List.filter_eq_nil_iff]
      intro s _
      simp [kwIds]
    rw [h1]
    simp
  | cons w rest ih =>
    intro hnd
    have hnd' : (kwIds rest).Nodup ∧ w.id ∉ kwIds rest := by
      simp only [kwIds, List.map_cons, List.nodup_cons] at hnd
      exact ⟨hnd.2, hnd.1⟩
    by_cases hw : w.id ∈ semIds sem
    · have hex : ∃ s0, sem.find? (fun s => s.id == w.id) = some s0 := by
        cases hfind : sem.find? (fun s => s.id == w.id) with
        | some s0 => exact ⟨s0, rfl⟩
        | none =>
          rw [List.find?_eq_none] at hfind
          obtain ⟨s, hs, hsid⟩ := List.mem_map.mp hw
          exact absurd (by simp [hsid]) (hfind s hs)
      obtain ⟨s0, hs0⟩ := hex
      have hpos0 : posEntry sem kw w = specHitOf sem kw 0 s0.id s0.content s0.md := by
        rw [posEntry, hs0]
      rw [@List.filter_cons_of_pos _ (fun w => decide (w.id ∈ semIds sem)) w rest
        (by simp [hw]), List.map_cons]
      have hcongr : sem.filter (fun s => decide (s.id ∈ kwIds (w :: rest))) =
          sem.filter (fun s => decide (s.id = w.id) || decide (s.id ∈ kwIds rest)) := by
        apply List.filter_congr
        intro s _
        simp [kwIds, List.mem_cons]
      have hperm2 : List.Perm
          (sem.filter (fun s => decide (s.id = w.id) || decide (s.id ∈ kwIds rest)))
          (sem.filter (fun s => decide (s.id = w.id)) ++
            sem.filter (fun s => decide (s.id ∈ kwIds rest))) := by
        apply filter_or_perm
        intro s _ hboth
        have e1 : s.id = w.id := of_decide_eq_true hboth.1
        have e2 : s.id ∈ kwIds rest := of_decide_eq_true hboth.2
        exact hnd'.2 (e1 ▸ e2)
      have hsingle : sem.filter (fun s => decide (s.id = w.id)) = [s0] := by
        rw [← filter_single_of_find? sem hsem w.id s0 hs0]
        apply List.filter_congr
        intro s _
        by_cases h : s.id = w.id <;> simp [h]
      have hR : List.Perm
          ((sem.filter (fun s => decide (s.id ∈ kwIds (w :: rest)))).map
            (fun s => specHitOf sem kw 0 s.id s.content s.md))
          (specHitOf sem kw 0 s0.id s0.content s0.md ::
            (sem.filter (fun s => decide (s.id ∈ kwIds rest))).map
              (fun s => specHitOf sem kw 0 s.id s.content s.md)) := by
        rw [hcongr]
        have h3 := List.Perm.map (fun s => specHitOf sem kw 0 s.id s.content s.md) hperm2
        have hfin : (sem.filter (fun s => decide (s.id = w.id)) ++
            sem.filter (fun s => decide (s.id ∈ kwIds rest))).map
              (fun s => specHitOf sem kw 0 s.id s.content s.md) =
            specHitOf sem kw 0 s0.id s0.content s0.md ::
              (sem.filter (fun s => decide (s.id ∈ kwIds rest))).map
                (fun s => specHitOf sem kw 0 s.id s.content s.md) := by
          rw [hsingle]
          rfl
        rw [hfin] at h3
        exact h3
      refine List.Perm.trans (List.Perm.cons _ (ih hnd'.1)) ?_
      rw [hpos0]
      exact hR.symm
    · rw [@List.filter_cons_of_neg _ (fun w => decide (w.id ∈ semIds sem)) w rest
        (by simp [hw])]
      have hcongr : sem.filter (fun s => decide (s.id ∈ kwIds (w :: rest))) =
          sem.filter (fun s => decide (s.id ∈ kwIds rest)) := by
        apply List.filter_congr
        intro s hs
        have hsne : s.id ≠ w.id := by
          intro he
          exact hw (he ▸ List.mem_map_of_mem (fun s => s.id) hs)
        simp [kwIds, List.mem_cons, hsne]
      rw [hcongr]
      exact ih hnd'.1

theorem uSem_score_eq (sem : List SemHit) (kw : List KwHit) (s : SemHit) :
    (specHitOf sem kw 0 s.id s.content s.md).score = kwRankScore kw s.id := by
  rw [specHitOf_score]
  ring

theorem uKw_score_eq (sem : List SemHit) (kw : List KwHit) (w : KwHit) :
    (specHitOf sem kw 0 w.id w.content w.md).score = kwRankScore kw w.id := by
  rw [specHitOf_score]
  ring

theorem hybrid_alpha_zero (sem : List SemHit) (kw : List KwHit) (k : Nat)
    (hsem : (semIds sem).Nodup) (hkw : (kwIds kw).Nodup) :
    (hybrid_search sem kw 0 k).map (fun h => h.id) =
      (kwIds kw ++
        (sem.filter (fun s => !decide (s.id ∈ kwIds kw))).map (fun s => s.id)).take k := by
  rw [hybrid_search, hybridPre_eq_union sem kw 0 hsem hkw]
  have hnn : ∀ x ∈ unionEntries sem kw 0, 0 ≤ x.score := by
    intro x hx
    rw [unionEntries] at hx
    rcases List.mem_append.mp hx with h1 | h2
    · obtain ⟨s, _, rfl⟩ := List.mem_map.mp h1
      rw [uSem_score_eq]
      exact kwRankScore_nonneg kw s.id
    · obtain ⟨w, _, rfl⟩ := List.mem_map.mp h2
      rw [uKw_score_eq]
      exact kwRankScore_nonneg kw w.id
  rw [sortDesc_split_zeros (unionEntries sem kw 0) hnn]
  have hposA : ∀ s : SemHit,
      (decide (0 < (specHitOf sem kw 0 s.id s.content s.md).score)) =
        decide (s.id ∈ kwIds kw) := by
    intro s
    rw [uSem_score_eq]
    by_cases hm : s.id ∈ kwIds kw
    · simp [hm, kwRankScore_pos_of_mem kw s.id hm]
    · simp [hm, kwRankScore_not_mem kw s.id hm]
  have hPeq : (unionEntries sem kw 0).filter (fun x => decide (0 < x.score)) =
      (sem.filter (fun s => decide (s.id ∈ kwIds kw))).map
        (fun s => specHitOf sem kw 0 s.id s.content s.md) ++
      (kw.filter (fun w => !decide (w.id ∈ semIds sem))).map
        (fun w => specHitOf sem kw 0 w.id w.content w.md) := by
    rw [unionEntries, List.filter_append]
    congr 1
    · rw [List.filter_map]
      congr 1
      apply List.filter_congr
      intro s _
      exact hposA s
    · apply List.filter_eq_self.mpr
      intro b hb
      obtain ⟨w, hwmem, rfl⟩ := List.mem_map.mp hb
      have hwid : w.id ∈ kwIds kw :=
        List.mem_map_of_mem (fun w => w.id) (List.mem_filter.mp hwmem).1
      rw [uKw_score_eq]
      simp [kwRankScore_pos_of_mem kw w.id hwid]
  have hZeq : (unionEntries sem kw 0).filter (fun x => !decide (0 < x.score)) =
      (sem.filter (fun s => !decide (s.id ∈ kwIds kw))).map
        (fun s => specHitOf sem kw 0 s.id s.content s.md) := by
    rw [unionEntries, List.filter_append]
    have hB0 : ((kw.filter (fun w => !decide (w.id ∈ semIds sem))).map
        (fun w => specHitOf sem kw 0 w.id w.content w.md)).filter
          (fun x => !decide (0 < x.score)) = [] := by
      rw [List.filter_eq_nil_iff]
      intro b hb
      obtain ⟨w, hwmem, rfl⟩ := List.mem_map.mp hb
      have hwid : w.id ∈ kwIds kw :=
        List.mem_map_of_mem (fun w => w.id) (List.mem_filter.mp hwmem).1
      rw [uKw_score_eq]
      simp [kwRankScore_pos_of_mem kw w.id hwid]
    rw [hB0, List.append_nil, List.filter_map]
    congr 1
    apply List.filter_congr
    intro s _
    rw [show ((fun x : RHit => !decide (0 < x.score)) ∘
        (fun s : SemHit => specHitOf sem kw 0 s.id s.content s.md)) s =
        !decide (0 < (specHitOf sem kw 0 s.id s.content s.md).score) from rfl]
    rw [hposA s]
  have hT := posEntry_pairwise_gt sem kw hkw
  have hPT : List.Perm
      ((sem.filter (fun s => decide (s.id ∈ kwIds kw))).map
        (fun s => specHitOf sem kw 0 s.id s.content s.md) ++
       (kw.filter (fun w => !decide (w.id ∈ semIds sem))).map
        (fun w => specHitOf sem kw 0 w.id w.content w.md))
      (kw.map (posEntry sem kw)) := by
    have hsplit : List.Perm (kw.map (posEntry sem kw))
        ((kw.filter (fun w => decide (w.id ∈ semIds sem))).map (posEntry sem kw) ++
         (kw.filter (fun w => !decide (w.id ∈ semIds sem))).map (posEntry sem kw)) := by
      have h0 := List.filter_append_perm (fun w => decide (w.id ∈ semIds sem)) kw
      rw [← List.map_append]
      exact (List.Perm.map (posEntry sem kw) h0).symm
    have hshared := shared_perm sem kw hsem kw hkw
    have hBpart : (kw.filter (fun w => !decide (w.id ∈ semIds sem))).map (posEntry sem kw) =
        (kw.filter (fun w => !decide (w.id ∈ semIds sem))).map
          (fun w => specHitOf sem kw 0 w.id w.content w.md) := by
      apply List.map_congr_left
      intro w hw
      have hnm : w.id ∉ semIds sem := by simpa using (List.mem_filter.mp hw).2
      rw [posEntry, List.find?_eq_none.mpr]
      intro x hx hbeq
      exact hnm ((beq_iff_eq.mp hbeq) ▸ List.mem_map_of_mem (fun s => s.id) hx)
    refine List.Perm.symm (hsplit.trans ?_)
    rw [hBpart]
    exact List.Perm.append hshared (List.Perm.refl _)
  have hsorted_ge := List.sorted_insertionSort scoreRel
    ((sem.filter (fun s => decide (s.id ∈ kwIds kw))).map
      (fun s => specHitOf sem kw 0 s.id s.content s.md) ++
     (kw.filter (fun w => !decide (w.id ∈ semIds sem))).map
      (fun w => specHitOf sem kw 0 w.id w.content w.md))
  have hperm_sort := List.perm_insertionSort scoreRel
    ((sem.filter (fun s => decide (s.id ∈ kwIds kw))).map
      (fun s => specHitOf sem kw 0 s.id s.content s.md) ++
     (kw.filter (fun w => !decide (w.id ∈ semIds sem))).map
      (fun w => specHitOf sem kw 0 w.id w.content w.md))
  have hTnodup : ((kw.map (posEntry sem kw)).map (fun x => x.score)).Nodup :=
    List.pairwise_map.mpr (hT.imp (fun h => ne_of_gt h))
  have hPnodup : ((pySortDesc
      ((sem.filter (fun s => decide (s.id ∈ kwIds kw))).map
        (fun s => specHitOf sem kw 0 s.id s.content s.md) ++
       (kw.filter (fun w => !decide (w.id ∈ semIds sem))).map
        (fun w => specHitOf sem kw 0 w.id w.content w.md))).map
      (fun x => x.score)).Nodup := by
    have hp := List.Perm.map (fun x : RHit => x.score) (hperm_sort.trans hPT)
    exact (hp.nodup_iff).mpr hTnodup
  have hPgt := pairwise_gt_of_ge_nodup _ hsorted_ge hPnodup
  have hsort_eq : pySortDesc
      ((sem.filter (fun s => decide (s.id ∈ kwIds kw))).map
        (fun s => specHitOf sem kw 0 s.id s.content s.md) ++
       (kw.filter (fun w => !decide (w.id ∈ semIds sem))).map
        (fun w => specHitOf sem kw 0 w.id w.content w.md)) =
      kw.map (posEntry sem kw) :=
    eq_of_perm_pairwise_gt _ _ (hperm_sort.trans hPT) hPgt hT
  rw [hPeq, hZeq, hsort_eq, List.map_take]
  congr 1
  rw [List.map_append, List.map_map, List.map_map]
  congr 1
  rw [kwIds]
  apply List.map_congr_left
  intro w _
  exact posEntry_id sem kw w

/-- C1 counterexample: with two semantic hits of equal score (ids 7
then 2), no keyword hits, `alpha = 1/2 ∈ [0,1]` and `k = 2`, both final
scores tie at 1/4. The code's stable sort keeps merge order [7, 2],
while the claimed tie-break by ascending id demands [2, 7]; the two
functions disagree. -/
theorem c1_cex :
    (hybrid_search semCex [] (1/2) 2).map (fun h => h.id) = [7, 2] ∧
    (hybridSpec semCex [] (1/2) 2).map (fun h => h.id) = [2, 7] ∧
    hybrid_search semCex [] (1/2) 2 ≠ hybridSpec semCex [] (1/2) 2 := by
  norm_num [hybrid_search, hybridPre, mergedDict, mergedSem, kwScoreDict, kwStep,
    updIns, dictGetD, entryToHit, pySortDesc, List.insertionSort, List.orderedInsert,
    scoreRel, specSort, specRel, hybridSpec, unionEntries, specHitOf, kwRankScore,
    semScoreOf, semIds, kwIds, semCex, List.enum, List.enumFrom, List.findIdx?]

/-- C1 amended: for every pair of search results with duplicate-free
ids, every alpha and k, `hybrid_search` equals the declarative
specification computed from the two lists — keyword score `1/(1+rank)`,
union merge with missing components defaulting to 0, final score
`alpha*semantic + (1-alpha)*keyword`, truncation to k — sorted
descending by final score with ties broken by the stable merge order
(semantic results first, in similarity order, then new keyword results
in keyword order), not by ascending id. The result is sorted by
descending final score. -/
theorem c1_amended (sem : List SemHit) (kw : List KwHit) (alpha : ℚ) (k : Nat)
    (hsem : (semIds sem).Nodup) (hkw : (kwIds kw).Nodup) :
    hybrid_search sem kw alpha k = (pySortDesc (unionEntries sem kw alpha)).take k ∧
    (hybrid_search sem kw alpha k).Pairwise (fun a b => b.score ≤ a.score) := by
  constructor
  · rw [hybrid_search, hybridPre_eq_union sem kw alpha hsem hkw]
  · exact (List.sorted_insertionSort scoreRel (hybridPre sem kw alpha)).sublist
      (List.take_sublist k _)

/-- C1 amended witness at one semantic hit (id 1, score 2) and one
keyword hit (id 2), alpha = 1, k = 2. -/
theorem c1_amended_witness :
    hybrid_search [⟨1, 2, "a", []⟩] [⟨2, "b", []⟩] 1 2 =
      (pySortDesc (unionEntries [⟨1, 2, "a", []⟩] [⟨2, "b", []⟩] 1)).take 2 ∧
    (hybrid_search [⟨1, 2, "a", []⟩] [⟨2, "b", []⟩] 1 2).Pairwise
      (fun a b => b.score ≤ a.score) :=
  c1_amended [⟨1, 2, "a", []⟩] [⟨2, "b", []⟩] 1 2 (by decide) (by decide)

/-- C4 counterexample: with one semantic hit (id 1) and one keyword hit
with a new id (2), `alpha = 1`, `k = 10`, the hybrid result is [1, 2]:
the keyword-only entry survives the merge with final score 0 instead of
being dropped, so the hybrid id sequence differs from the pure
similarity id sequence [1]. -/
theorem c4_cex :
    (hybrid_search semCex4 kwCex4 1 10).map (fun h => h.id) = [1, 2] ∧
    semIds semCex4 = [1] ∧
    (hybrid_search semCex4 kwCex4 1 10).map (fun h => h.id) ≠ semIds semCex4 := by
  norm_num [hybrid_search, hybridPre, mergedDict, mergedSem, kwScoreDict, kwStep,
    updIns, dictGetD, entryToHit, pySortDesc, List.insertionSort, List.orderedInsert,
    scoreRel, semIds, kwIds, semCex4, kwCex4, List.enum, List.enumFrom]

/-- C4 amended: with duplicate-free result ids, `alpha = 1` (given the
similarity list is sorted by descending positive scores, as FAISS
returns it) yields the pure-similarity id sequence followed by the
keyword-only ids (tied at final score 0, in keyword order), truncated
to k; `alpha = 0` yields the pure-keyword id sequence followed by the
similarity-only ids (tied at 0, in similarity order), truncated to k.
The boundary laws of the claim hold exactly only when the other list
contributes no new ids within the first k positions. -/
theorem c4_amended (sem : List SemHit) (kw : List KwHit) (k : Nat)
    (hsem : (semIds sem).Nodup) (hkw : (kwIds kw).Nodup) :
    ((sem.Pairwise (fun a b => b.score ≤ a.score)) → (∀ s ∈ sem, 0 < s.score) →
      (hybrid_search sem kw 1 k).map (fun h => h.id) =
        (semIds sem ++
          (kw.filter (fun w => !decide (w.id ∈ semIds sem))).map
            (fun w => w.id)).take k) ∧
    ((hybrid_search sem kw 0 k).map (fun h => h.id) =
      (kwIds kw ++
        (sem.filter (fun s => !decide (s.id ∈ kwIds kw))).map
          (fun s => s.id)).take k) :=
  ⟨fun hsort hpos => hybrid_alpha_one sem kw k hsem hkw hsort hpos,
   hybrid_alpha_zero sem kw k hsem hkw⟩

/-- C4 amended witness at one semantic hit (id 1, score 2) and one
keyword hit (id 2), k = 2. -/
theorem c4_amended_witness :
    (hybrid_search [⟨1, 2, "a", []⟩] [⟨2, "b", []⟩] 1 2).map (fun h => h.id) =
      (semIds [⟨1, 2, "a", []⟩] ++
        (([⟨2, "b", []⟩] : List KwHit).filter
          (fun w => !decide (w.id ∈ semIds [⟨1, 2, "a", []⟩]))).map
            (fun w => w.id)).take 2 ∧
    (hybrid_search [⟨1, 2, "a", []⟩] [⟨2, "b", []⟩] 0 2).map (fun h => h.id) =
      (kwIds [⟨2, "b", []⟩] ++
        (([⟨1, 2, "a", []⟩] : List SemHit).filter
          (fun s => !decide (s.id ∈ kwIds [⟨2, "b", []⟩]))).map
            (fun s => s.id)).take 2 :=
  ⟨(c4_amended [⟨1, 2, "a", []⟩] [⟨2, "b", []⟩] 2 (by decide) (by decide)).1
      (by decide) (by decide),
   (c4_amended [⟨1, 2, "a", []⟩] [⟨2, "b", []⟩] 2 (by decide) (by decide)).2⟩

end NoteVoice
